import Mathlib

/-!
Verification development for scripts/firebase-model-injector.py.

The script's mapping core is shallowly embedded below: Python dicts become
insertion-ordered association lists (the semantics of CPython dicts that the
script relies on), JSON values become an inductive type, the Firestore client
becomes an abstract store `WriteOp → Bool` deciding acceptance of each write,
and the nondeterministic collaborators (wall clock for `datetime.now`,
store-generated document ids from `collection.document().id`, the date parser
from `dateutil`) are explicit function parameters threaded through the code.

Modelling notes on pathological inputs no property exercises:
* metadata directive values of an unexpected runtime type (`_metadata` not an
  object, `collectionName` / `documentId` / a shared entity's `collection` not
  a string, `fields` not a list, or `fields` holding an unhashable element)
  are modelled as a parse failure; the source either raises inside
  `parse_model_file`'s `except Exception` (same observable outcome) or defers
  the crash to write time, which no claim touches;
* `pyRepr` elides Python's escaping of quotes inside string reprs, and renders
  converted datetime values with a fixed marker; both are unreachable from the
  inputs any claim speaks about (document ids are taken from string ids or
  from the store's id generator).
-/

namespace FMI

/-- A JSON-like runtime value as the script sees it.  `jdate` is the store's
temporal type produced by date normalization (an instant plus a fixed UTC
offset in minutes); it never occurs in raw input. -/
inductive JValue where
  | jnull : JValue
  | jbool : Bool → JValue
  | jnum : Int → JValue
  | jstr : String → JValue
  | jdate : Int → Int → JValue
  | jarr : List JValue → JValue
  | jobj : List (String × JValue) → JValue

open JValue

/-- A Python dict: insertion-ordered association list with (in real runs)
unique keys. -/
abbrev Dict := List (String × JValue)

/-- Membership test, `k in d`. -/
def dictHas (d : Dict) (k : String) : Bool :=
  d.any (fun p => p.1 == k)

/-- Lookup, `d[k]` / `d.get(k)`. -/
def dictGet (d : Dict) (k : String) : Option JValue :=
  (d.find? (fun p => p.1 == k)).map (fun p => p.2)

/-- Deletion, `del d[k]` (on unique-key dicts; removes every entry for `k`). -/
def dictDel (d : Dict) (k : String) : Dict :=
  d.filter (fun p => p.1 != k)

/-- Assignment, `d[k] = v`: updates the entry in place (keeping its position)
when present, appends a fresh entry otherwise — CPython dict semantics. -/
def dictSet : Dict → String → JValue → Dict
  | [], k, v => [(k, v)]
  | p :: rest, k, v => if p.1 == k then (k, v) :: rest else p :: dictSet rest k v

/-- Number of entries stored under key `k` (1 on real dicts when present). -/
def countKey (d : Dict) (k : String) : Nat :=
  (d.filter (fun p => p.1 == k)).length

/-- Keys are pairwise distinct, as in every dict produced by `json.load`. -/
def dictNodup (d : Dict) : Prop :=
  (d.map Prod.fst).Nodup

/-- Python truthiness of a value, `bool(v)`. -/
def pyTruthy : JValue → Bool
  | jnull => false
  | jbool b => b
  | jnum n => n != 0
  | jstr s => s != ""
  | jdate _ _ => true
  | jarr xs => !xs.isEmpty
  | jobj m => !m.isEmpty

mutual

/-- Python `repr` of a value (quote escaping elided, see header note). -/
def pyRepr : JValue → String
  | jnull => "None"
  | jbool true => "True"
  | jbool false => "False"
  | jnum n => toString n
  | jstr s => "'" ++ s ++ "'"
  | jdate n tz => "datetime(" ++ toString n ++ ", " ++ toString tz ++ ")"
  | jarr xs => "[" ++ pyReprList xs ++ "]"
  | jobj m => "\x7b" ++ pyReprFields m ++ "\x7d"

/-- Comma-separated reprs of a list's elements. -/
def pyReprList : List JValue → String
  | [] => ""
  | [x] => pyRepr x
  | x :: y :: xs => pyRepr x ++ ", " ++ pyReprList (y :: xs)

/-- Comma-separated reprs of a dict's entries. -/
def pyReprFields : List (String × JValue) → String
  | [] => ""
  | [(k, v)] => "'" ++ k ++ "': " ++ pyRepr v
  | (k, v) :: e :: m => "'" ++ k ++ "': " ++ pyRepr v ++ ", " ++ pyReprFields (e :: m)

end

/-- Python `str(v)`, used for `str(item_id)`. -/
def pyStr : JValue → String
  | jstr s => s
  | v => pyRepr v

/-! ### Model file parsing (`extract_collection_name_from_path`, `parse_model_file`) -/

/-- One extracted shared entity: `result.shared_data[entity_name]` holds the
target collection path, the declared fields filter (raw JSON values, matching
the source which iterates the `fields` list as-is) and the collected data. -/
structure SharedEntry where
  collection : String
  fields : List JValue
  data : Dict

/-- Mirror of the script's `ParsedModelData` container. -/
structure ParsedModelData where
  data : Dict
  collection_name : String
  document_id : String
  nested_collections : JValue
  shared_data : List (String × SharedEntry)

/-- Path classifier `extract_collection_name_from_path`: the argument is the
list of directory segments of the file's path relative to the app dir (the
filename already excluded). -/
def extract_collection_name_from_path (parts : List String) : String :=
  match parts.getLast? with
  | none => "root"
  | some last => (last.toLower).replace "_" "-"

/-- Python membership `key in shared_fields` for a string key: only a string
element equal to the key matches. -/
def fieldsContain (fields : List JValue) (k : String) : Bool :=
  fields.any (fun v => match v with | jstr s => s == k | _ => false)

/-- The filter `key in shared_fields or not shared_fields` guarding the merge
of an entity-named object's keys. -/
def fieldsAllow (fields : List JValue) (k : String) : Bool :=
  fieldsContain fields k || fields.isEmpty

/-- Every element of a `fields` list is hashable (dict membership tests on an
unhashable element raise, failing the parse). -/
def fieldsHashable (fields : List JValue) : Bool :=
  fields.all (fun v => match v with | jarr _ => false | jobj _ => false | _ => true)

/-- The first extraction loop of a shared entity: move every field named in
`fields` (and currently present) from `data` into the entity's object. -/
def collectFields (fields : List JValue) (data : Dict) (obj : Dict) : Dict × Dict :=
  match fields with
  | [] => (data, obj)
  | jstr f :: rest =>
    match dictGet data f with
    | some v => collectFields rest (dictDel data f) (dictSet obj f v)
    | none => collectFields rest data obj
  | _ :: rest => collectFields rest data obj

/-- The second extraction step: merge the keys of a top-level object stored
under the entity's own name, honoring the fields filter. -/
def mergeEntityObject (fields : List JValue) (m : List (String × JValue)) (obj : Dict) : Dict :=
  match m with
  | [] => obj
  | (k, v) :: rest =>
    mergeEntityObject fields rest (if fieldsAllow fields k then dictSet obj k v else obj)

/-- Process one `sharedData` entity whose config is a dict: returns the
shrunken payload and the entity to emit, if it collected anything.  `none` is
a parse failure (directive value of an unexpected type, see header note). -/
def processSharedEntity (name : String) (cfg : Dict) (data : Dict) :
    Option (Dict × Option (String × SharedEntry)) :=
  let collOk : Option String :=
    match dictGet cfg "collection" with
    | none => some ("_shared/" ++ name)
    | some (jstr s) => some s
    | some _ => none
  match collOk with
  | none => none
  | some coll =>
    let fieldsOk : Option (List JValue) :=
      match dictGet cfg "fields" with
      | none => some []
      | some (jarr xs) => if fieldsHashable xs then some xs else none
      | some _ => none
    match fieldsOk with
    | none => none
    | some fields =>
      let s1 := collectFields fields data []
      let s2 :=
        match dictGet s1.1 name with
        | some (jobj m) => (dictDel s1.1 name, mergeEntityObject fields m s1.2)
        | _ => s1
      some (s2.1, if s2.2.isEmpty then none
                  else some (name, { collection := coll, fields := fields, data := s2.2 }))

/-- The loop over `shared_config.items()`: non-dict configs are skipped by the
`isinstance` guard; entities that collected nothing are silently dropped. -/
def processSharedConfig (entries : List (String × JValue)) (data : Dict)
    (acc : List (String × SharedEntry)) : Option (Dict × List (String × SharedEntry)) :=
  match entries with
  | [] => some (data, acc)
  | (name, jobj cfg) :: rest =>
    match processSharedEntity name cfg data with
    | none => none
    | some (data1, ent) =>
      processSharedConfig rest data1 (acc ++ ent.toList)
  | (_, _) :: rest => processSharedConfig rest data acc

/-- `parse_model_file`: `raw = none` models unreadable/invalid JSON.  Mirrors
the source, including the final `del data['_metadata']`, which raises (and so
fails the parse) when a shared entity already claimed the `_metadata` key. -/
def parse_model_file (defaultColl : String) (raw : Option Dict) : Option ParsedModelData :=
  match raw with
  | none => none
  | some data =>
    match dictGet data "_metadata" with
    | none =>
      some { data := data, collection_name := defaultColl, document_id := "main",
             nested_collections := jobj [], shared_data := [] }
    | some (jobj meta) =>
      (match dictGet meta "collectionName" with
       | none => some defaultColl
       | some (jstr s) => some s
       | some _ => none).bind fun collName =>
      (match dictGet meta "documentId" with
       | none => some "main"
       | some (jstr s) => some s
       | some _ => none).bind fun docId =>
      (match dictGet meta "sharedData" with
       | none => some (data, [])
       | some (jobj sc) => processSharedConfig sc data []
       | some _ => none).bind fun res =>
      if dictHas res.1 "_metadata" then
        some { data := dictDel res.1 "_metadata", collection_name := collName,
               document_id := docId,
               nested_collections := (dictGet meta "nestedCollections").getD (jobj []),
               shared_data := res.2 }
      else none
    | some _ => none

/-! ### Firestore push (`push_shared_data_to_firestore`, `push_to_firestore`) -/

/-- The abstract date parser (`dateutil.parser.parse`): an instant plus an
optional timezone offset, `none` when the text carries no zone. -/
structure PyDT where
  stamp : Int
  tz : Option Int
deriving DecidableEq

/-- External collaborators threaded explicitly: the actor id from the
environment, the date parser, the store's id generator (one fresh id per
consumed index) and the wall clock (one ISO string per consumed index). -/
structure Env where
  uuid : String
  dparse : String → Option PyDT
  genId : Nat → String
  clock : Nat → String

/-- Counters for the two nondeterministic supplies consumed so far. -/
structure St where
  gen : Nat
  clk : Nat
deriving DecidableEq

/-- One attempted document write: the collection path segments, the document
id, the data and the merge flag of `.set`. -/
structure WriteOp where
  path : List String
  docId : String
  data : Dict
  merge : Bool

/-- The document store decides acceptance of each attempted write; `false`
models `doc_ref.set` raising. -/
abbrev Store := WriteOp → Bool

/-- Python `str.split(sep)` on a character list: splitting keeps empty
pieces, and the empty string yields one empty piece. -/
def splitChars (sep : Char) : List Char → List (List Char)
  | [] => [[]]
  | c :: rest =>
    let r := splitChars sep rest
    if c == sep then [] :: r
    else match r with
      | h :: t => (c :: h) :: t
      | [] => [[c]]

/-- Python `collection.split('/')`. -/
def pySplitSlash (s : String) : List String :=
  (splitChars '/' s.toList).map String.mk

/-- Python `field.endswith('s')`: the last character is `s`. -/
def endsWithS (s : String) : Bool :=
  match s.toList.getLast? with
  | some c => c == 's'
  | none => false

/-- Path of a shared entity's document: a two-segment `collection` splits into
collection/sub-collection under the project root, anything else is one id. -/
def sharedPath (domain : String) (collection : String) : List String :=
  let parts := pySplitSlash collection
  if parts.length == 2 then ("project-" ++ domain) :: parts
  else ["project-" ++ domain, collection]

/-- Append the three provenance fields, `_injectedAt` first. -/
def addProvenance (ts uuid : String) (d : Dict) : Dict :=
  dictSet (dictSet (dictSet d "_injectedAt" (jstr ts)) "_injectedBy" (jstr uuid))
    "_source" (jstr "firebase-model-injector.py")

/-- `push_shared_data_to_firestore`: one merge-write per entity under the
project root, aborting on the first rejected write. -/
def pushShared (env : Env) (store : Store) (domain : String) (dryRun : Bool)
    (entities : List (String × SharedEntry)) (st : St) : Bool × List WriteOp × St :=
  match entities with
  | [] => (true, [], st)
  | (_, e) :: rest =>
    if dryRun then pushShared env store domain dryRun rest st
    else
      let w : WriteOp := { path := sharedPath domain e.collection, docId := "main",
                           data := addProvenance (env.clock st.clk) env.uuid e.data,
                           merge := true }
      if store w then
        let r := pushShared env store domain dryRun rest { gen := st.gen, clk := st.clk + 1 }
        (r.1, w :: r.2.1, r.2.2)
      else (false, [w], { gen := st.gen, clk := st.clk + 1 })

/-- The fixed alias table `collection_map`. -/
def collectionMap : List (String × String) :=
  [("clients", "clients"), ("assessments", "assessments"),
   ("questionnaires", "questionnaireTemplates"), ("installations", "installations"),
   ("layouts", "layouts"), ("recentClients", "clients")]

/-- `collection_map.values()`. -/
def collectionMapValues : List String := collectionMap.map Prod.snd

/-- Python `field.rstrip('s')`: strips every trailing `s`, not just one. -/
def dropTrailingS (s : String) : String :=
  String.mk ((s.toList.reverse.dropWhile (fun c => c == 's')).reverse)

/-- Collection name for one array field: alias table, else the field name with
trailing `s` stripped; overridden by the model's declared collection name when
that name is truthy and equals some alias-table target value. -/
def resolveCollection (declared field : String) : String :=
  let base :=
    match (collectionMap.find? (fun p => p.1 == field)).map Prod.snd with
    | some c => c
    | none => if endsWithS field then dropTrailingS field else field
  if declared != "" && collectionMapValues.contains declared then declared else base

/-- The six well-known date fields of the array branch, in source order. -/
def dateFields6 : List String :=
  ["createdAt", "updatedAt", "conductedDate", "scheduledDate", "deliveryDate", "completionDate"]

/-- The four well-known date fields of the single-document branch. -/
def dateFields4 : List String :=
  ["createdAt", "updatedAt", "conductedDate", "scheduledDate"]

/-- Normalize one parsed datetime: a missing zone becomes UTC. -/
def normDT (dt : PyDT) : JValue := jdate dt.stamp (dt.tz.getD 0)

/-- Array-branch date conversion: for each well-known field in turn, a string
value is replaced by the parsed datetime; a parse failure leaves the string
and reports the field as a warning. -/
def convertDates (dparse : String → Option PyDT) (fields : List String) (d : Dict) :
    Dict × List String :=
  match fields with
  | [] => (d, [])
  | f :: rest =>
    match dictGet d f with
    | some (jstr s) =>
      match dparse s with
      | some dt => convertDates dparse rest (dictSet d f (normDT dt))
      | none =>
        let r := convertDates dparse rest d
        (r.1, f :: r.2)
    | _ => convertDates dparse rest d

/-- Single-document-branch date conversion: iterates the dict's entries and
converts a string value whose key is one of the four well-known names. -/
def convertDatesByEntry (dparse : String → Option PyDT) (d : Dict) : Dict × List String :=
  match d with
  | [] => ([], [])
  | (k, v) :: rest =>
    let r := convertDatesByEntry dparse rest
    match v with
    | jstr s =>
      if dateFields4.contains k then
        match dparse s with
        | some dt => ((k, normDT dt) :: r.1, r.2)
        | none => ((k, jstr s) :: r.1, k :: r.2)
      else ((k, jstr s) :: r.1, r.2)
    | _ => ((k, v) :: r.1, r.2)

/-- Document id of one array item: its own `id` when truthy, else the next
store-generated id (consuming the generator). -/
def itemDocId (env : Env) (gen : Nat) (m : Dict) : String × Nat :=
  match dictGet m "id" with
  | some v => if pyTruthy v then (pyStr v, gen) else (env.genId gen, gen + 1)
  | none => (env.genId gen, gen + 1)

/-- The written data of one array item: date conversion, then provenance, then
the `id` key removed. -/
def itemData (env : Env) (ts : String) (m : Dict) : Dict × List String :=
  let r := convertDates env.dparse dateFields6 m
  (dictDel (addProvenance ts env.uuid r.1) "id", r.2)

/-- The per-item loop of the array branch: non-dict items are skipped; the
first rejected write aborts the remaining items. -/
def writeItems (env : Env) (store : Store) (collName : String) (items : List JValue)
    (st : St) : Bool × List WriteOp × List String × St :=
  match items with
  | [] => (true, [], [], st)
  | jobj m :: rest =>
    let ids := itemDocId env st.gen m
    let dat := itemData env (env.clock st.clk) m
    let w : WriteOp := { path := [collName], docId := ids.1, data := dat.1, merge := false }
    if store w then
      let r := writeItems env store collName rest { gen := ids.2, clk := st.clk + 1 }
      (r.1, w :: r.2.1, dat.2 ++ r.2.2.1, r.2.2.2)
    else (false, [w], dat.2, { gen := ids.2, clk := st.clk + 1 })
  | _ :: rest => writeItems env store collName rest st

/-- The items of one array field, `model_data.data[array_field]`. -/
def itemsOf (data : Dict) (f : String) : List JValue :=
  match dictGet data f with
  | some (jarr xs) => xs
  | _ => []

/-- The loop over the array fields: each field's items go to its resolved
collection; a failed field aborts the remaining fields. -/
def writeArrayFields (env : Env) (store : Store) (declared : String) (data : Dict)
    (fields : List String) (dryRun : Bool) (st : St) :
    Bool × List WriteOp × List String × St :=
  match fields with
  | [] => (true, [], [], st)
  | f :: rest =>
    if dryRun then writeArrayFields env store declared data rest dryRun st
    else
      let r := writeItems env store (resolveCollection declared f) (itemsOf data f) st
      if r.1 then
        let r2 := writeArrayFields env store declared data rest dryRun r.2.2.2
        (r2.1, r.2.1 ++ r2.2.1, r.2.2.1 ++ r2.2.2.1, r2.2.2.2)
      else (false, r.2.1, r.2.2.1, r.2.2.2)

/-- The single-document branch: one replace-write of the whole payload to
`collectionName/documentId`, with entry-wise date conversion. -/
def writeSingleDoc (env : Env) (store : Store) (pm : ParsedModelData) (dryRun : Bool)
    (st : St) : Bool × List WriteOp × List String × St :=
  if dryRun then (true, [], [], st)
  else
    let r := convertDatesByEntry env.dparse pm.data
    let w : WriteOp := { path := [pm.collection_name], docId := pm.document_id,
                         data := addProvenance (env.clock st.clk) env.uuid r.1,
                         merge := false }
    (store w, [w], r.2, { gen := st.gen, clk := st.clk + 1 })

/-- The fallback branch: one verbatim replace-write, no date conversion. -/
def writeFallback (env : Env) (store : Store) (pm : ParsedModelData) (dryRun : Bool)
    (st : St) : Bool × List WriteOp × St :=
  if dryRun then (true, [], st)
  else
    let w : WriteOp := { path := [pm.collection_name], docId := pm.document_id,
                         data := addProvenance (env.clock st.clk) env.uuid pm.data,
                         merge := false }
    (store w, [w], { gen := st.gen, clk := st.clk + 1 })

/-- Shape classifier, array part: a non-empty list whose first element is a
keyed structure. -/
def isArrayOfObjects : JValue → Bool
  | jarr (jobj _ :: _) => true
  | _ => false

/-- Shape classifier, object part. -/
def isObjValue : JValue → Bool
  | jobj _ => true
  | _ => false

/-- The payload's array fields, in payload order. -/
def arrayFields (d : Dict) : List String :=
  (d.filter (fun p => isArrayOfObjects p.2)).map Prod.fst

/-- The payload's single-object fields, in payload order. -/
def singleObjectFields (d : Dict) : List String :=
  (d.filter (fun p => !isArrayOfObjects p.2 && isObjValue p.2)).map Prod.fst

/-- The main-payload part of `push_to_firestore`, after the shared entities:
exactly one of the array / single-document / fallback branches runs. -/
def pushMainData (env : Env) (store : Store) (pm : ParsedModelData)
    (dryRun : Bool) (st : St) : Bool × List WriteOp × List String × St :=
  if !(arrayFields pm.data).isEmpty then
    writeArrayFields env store pm.collection_name pm.data (arrayFields pm.data) dryRun st
  else if !(singleObjectFields pm.data).isEmpty then
    writeSingleDoc env store pm dryRun st
  else
    let r := writeFallback env store pm dryRun st
    (r.1, r.2.1, [], r.2.2)

/-- `push_to_firestore`: shared entities first (a failure there aborts the
file), then the main-payload writes. -/
def pushToFirestore (env : Env) (store : Store) (domain : String) (pm : ParsedModelData)
    (dryRun : Bool) (st : St) : Bool × List WriteOp × List String × St :=
  let s :=
    if pm.shared_data.isEmpty then (true, [], st)
    else pushShared env store domain dryRun pm.shared_data st
  if !s.1 then (false, s.2.1, [], s.2.2)
  else
    let r := pushMainData env store pm dryRun s.2.2
    (r.1, s.2.1 ++ r.2.1, r.2.2.1, r.2.2.2)

/-- A write is strictly under the `project-<domain-id>` root: its collection
path has at least two segments and starts with the project root. -/
def underProjectRoot (domain : String) (w : WriteOp) : Bool :=
  match w.path with
  | a :: _ :: _ => a == "project-" ++ domain
  | _ => false

/-! ### Main loop (`main`) -/

/-- One discovered model file: its path-derived default collection name and
its raw content (`none` models unreadable or invalid JSON). -/
structure FileInput where
  defaultColl : String
  raw : Option Dict

/-- The per-file loop of `main`: parse then push, counting successes and
errors; a failed file never stops the remaining files. -/
def runFiles (env : Env) (store : Store) (domain : String) (dryRun : Bool)
    (files : List FileInput) (st : St) : Nat × Nat × St :=
  match files with
  | [] => (0, 0, st)
  | f :: rest =>
    match parse_model_file f.defaultColl f.raw with
    | none =>
      let r := runFiles env store domain dryRun rest st
      (r.1, r.2.1 + 1, r.2.2)
    | some pm =>
      let p := pushToFirestore env store domain pm dryRun st
      let r := runFiles env store domain dryRun rest p.2.2.2
      if p.1 then (r.1 + 1, r.2.1, r.2.2) else (r.1, r.2.1 + 1, r.2.2)

/-- The process exit code: 0 when no files were found, else 0 exactly when the
error count is zero. -/
def mainExit (env : Env) (store : Store) (domain : String) (dryRun : Bool)
    (files : List FileInput) (st : St) : Nat :=
  if files.isEmpty then 0
  else if (runFiles env store domain dryRun files st).2.1 == 0 then 0 else 1

/-! ### Concrete collaborators for evaluating the development at inputs -/

/-- A concrete environment whose date parser always fails. -/
def envT : Env :=
  { uuid := "u", dparse := fun _ => none,
    genId := fun n => "gen" ++ toString n, clock := fun n => "t" ++ toString n }

/-- A store accepting every write. -/
def acceptAll : Store := fun _ => true

/-- A concrete model whose one array field is not an alias key but whose
declared collection name is an alias target value. -/
def pmCase8 : ParsedModelData :=
  { data := [("widgets", jarr [jobj [("id", jstr "w1")]])],
    collection_name := "clients", document_id := "main",
    nested_collections := jobj [], shared_data := [] }

def envDate : Env :=
  { uuid := "u",
    dparse := fun s => if s == "2024-01-02" then some { stamp := 55, tz := none } else none,
    genId := fun n => "gen" ++ toString n, clock := fun n => "t" ++ toString n }

def pmCase4 : ParsedModelData :=
  { data := [("profile", jobj [("x", jnum 1)]), ("deliveryDate", jstr "2024-01-02"),
             ("createdAt", jstr "2024-01-02")],
    collection_name := "client-detail", document_id := "main",
    nested_collections := jobj [], shared_data := [] }

def pmCase4b : ParsedModelData :=
  { data := [("things", jarr [jobj [("deliveryDate", jstr "2024-01-02")]])],
    collection_name := "client-detail", document_id := "main",
    nested_collections := jobj [], shared_data := [] }

/-- A concrete model with one array item whose createdAt does not parse. -/
def pmCase7 : ParsedModelData :=
  { data := [("things", jarr [jobj [("name", jstr "x"), ("createdAt", jstr "not-a-date")]])],
    collection_name := "dashboard", document_id := "main",
    nested_collections := jobj [], shared_data := [] }

/-- A concrete model with a heterogeneous array (second item not an object). -/
def pmCase2 : ParsedModelData :=
  { data := [("clients", jarr [jobj [("id", jstr "c1")], jnum 5])],
    collection_name := "dashboard", document_id := "main",
    nested_collections := jobj [], shared_data := [] }

/-- A store rejecting every write, and a minimal fallback-branch model. -/
def rejectAll : Store := fun _ => false

def pmCase9 : ParsedModelData :=
  { data := [("a", jnum 1)], collection_name := "dashboard", document_id := "main",
    nested_collections := jobj [], shared_data := [] }

/-- A concrete parsed model with one shared entity and a fallback payload. -/
def pmCase6 : ParsedModelData :=
  { data := [("a", jnum 1)], collection_name := "dashboard", document_id := "main",
    nested_collections := jobj [],
    shared_data := [("org", { collection := "_shared/orgs", fields := [jstr "name"],
                              data := [("name", jstr "X")] })] }

/-- Concrete inputs for the shared-extraction claim. -/
def rawCase1a : Dict :=
  [("a", jnum 1), ("name", jstr "X"),
   ("_metadata", jobj [("sharedData",
      jobj [("org", jobj [("collection", jstr "_shared/orgs"),
                          ("fields", jarr [jstr "name", jstr "missing"])])])])]

def rawCase1b : Dict :=
  [("name", jstr "X"), ("org", jobj [("name", jstr "Y")]),
   ("_metadata", jobj [("sharedData",
      jobj [("org", jobj [("collection", jstr "_shared/orgs"),
                          ("fields", jarr [])])])])]

def rawCase1w : Dict :=
  [("name", jstr "X"),
   ("_metadata", jobj [("sharedData",
      jobj [("org", jobj [("collection", jstr "_shared/orgs"),
                          ("fields", jarr [jstr "name"])])])])]

def entCase1 : SharedEntry :=
  { collection := "_shared/orgs", fields := [jstr "name"], data := [("name", jstr "X")] }

def pmCase1 : ParsedModelData :=
  { data := [], collection_name := "root", document_id := "main",
    nested_collections := jobj [], shared_data := [("org", entCase1)] }

def cfgCase1 : Dict :=
  [("collection", jstr "_shared/orgs"), ("fields", jarr [jstr "name"])]

def dataCase1 : Dict := [("name", jstr "X"), ("qq", jnum 2)]

def resCase1 : Dict × Option (String × SharedEntry) :=
  ([("qq", jnum 2)], some ("org", entCase1))

/-- Two writes agree except possibly in the `_injectedAt` provenance value. -/
def eqModTs (w1 w2 : WriteOp) : Prop :=
  w1.path = w2.path ∧ w1.docId = w2.docId ∧ w1.merge = w2.merge ∧
  dictDel w1.data "_injectedAt" = dictDel w2.data "_injectedAt"

/-- An item that consumes no store-generated id: either not a keyed structure
(skipped entirely) or carrying a truthy `id`. -/
def itemHasId : JValue → Bool
  | jobj m =>
    match dictGet m "id" with
    | some v => pyTruthy v
    | none => false
  | _ => true

/-- Every array item of the payload carries its own truthy id. -/
def allArrayItemsHaveIds (d : Dict) : Bool :=
  (arrayFields d).all (fun f => (itemsOf d f).all itemHasId)

def envG2 : Env := { envT with genId := fun n => "alt" ++ toString n }

def envC2 : Env :=
  { envT with genId := fun n => "alt" ++ toString n,
              clock := fun n => "T" ++ toString n }

def pmCase5 : ParsedModelData :=
  { data := [("clients", jarr [jobj [("name", jstr "Acme")]])],
    collection_name := "dashboard", document_id := "main",
    nested_collections := jobj [], shared_data := [] }

def rawCase5w : Dict :=
  [("clients", jarr [jobj [("id", jstr "c1"), ("name", jstr "Acme")]])]

def pmCase5w : ParsedModelData :=
  { data := rawCase5w, collection_name := "dash", document_id := "main",
    nested_collections := jobj [], shared_data := [] }

/-! ### Helper lemmas about dict operations -/

theorem dictHas_del_self (d : Dict) (k : String) : dictHas (dictDel d k) k = false := by
  simp [dictHas, dictDel, List.any_filter]


theorem dictGet_cons (p : String × JValue) (rest : Dict) (k : String) :
    dictGet (p :: rest) k = if p.1 = k then some p.2 else dictGet rest k := by
  by_cases hp : p.1 = k <;> simp [dictGet, List.find?_cons, hp]

theorem dictHas_cons (p : String × JValue) (rest : Dict) (k : String) :
    dictHas (p :: rest) k = (p.1 == k || dictHas rest k) := by
  simp [dictHas]

theorem dictDel_cons (p : String × JValue) (rest : Dict) (k : String) :
    dictDel (p :: rest) k = if p.1 = k then dictDel rest k else p :: dictDel rest k := by
  by_cases hp : p.1 = k <;> simp [dictDel, List.filter_cons, hp]

theorem dictSet_cons (p : String × JValue) (rest : Dict) (k : String) (v : JValue) :
    dictSet (p :: rest) k v = if p.1 = k then (k, v) :: rest else p :: dictSet rest k v := by
  by_cases hp : p.1 = k <;> simp [dictSet, hp]

theorem dictHas_del_ne (d : Dict) (k k' : String) (h : k' ≠ k) :
    dictHas (dictDel d k) k' = dictHas d k' := by
  simp only [dictHas, dictDel, List.any_filter]
  congr 1
  funext a
  by_cases ha : a.1 = k'
  · simp [ha, h]
  · simp [ha]

theorem dictHas_del_mono (d : Dict) (k k' : String)
    (h : dictHas (dictDel d k) k' = true) : dictHas d k' = true := by
  by_cases hk : k' = k
  · rw [hk, dictHas_del_self] at h; exact absurd h (by simp)
  · rwa [dictHas_del_ne d k k' hk] at h

theorem dictGet_set_self (d : Dict) (k : String) (v : JValue) :
    dictGet (dictSet d k v) k = some v := by
  induction d with
  | nil => simp [dictSet, dictGet_cons]
  | cons p rest ih =>
    by_cases hp : p.1 = k <;> simp [dictSet_cons, dictGet_cons, hp, ih]

theorem dictGet_set_ne (d : Dict) (k k' : String) (v : JValue) (h : k' ≠ k) :
    dictGet (dictSet d k v) k' = dictGet d k' := by
  induction d with
  | nil => simp [dictSet, dictGet_cons, Ne.symm h]
  | cons p rest ih =>
    by_cases hp : p.1 = k
    · simp [dictSet_cons, dictGet_cons, hp, Ne.symm h, ih]
    · by_cases hp' : p.1 = k' <;> simp [dictSet_cons, dictGet_cons, hp, hp', ih, h]

theorem dictHas_set (d : Dict) (k k' : String) (v : JValue) :
    dictHas (dictSet d k v) k' = (dictHas d k' || k' == k) := by
  induction d with
  | nil => simp [dictSet, dictHas, eq_comm]
  | cons p rest ih =>
    by_cases hp : p.1 = k
    · by_cases hk : k' = k
      · simp [dictSet_cons, dictHas_cons, hp, hk]
      · simp [dictSet_cons, dictHas_cons, hp, hk, Ne.symm hk]
    · simp [dictSet_cons, dictHas_cons, hp, ih, Bool.or_assoc]

theorem dictDel_set_self (d : Dict) (k : String) (v : JValue) :
    dictDel (dictSet d k v) k = dictDel d k := by
  induction d with
  | nil => simp [dictSet, dictDel]
  | cons p rest ih =>
    by_cases hp : p.1 = k <;> simp [dictSet_cons, dictDel_cons, hp, ih]

theorem dictDel_set_ne (d : Dict) (k k' : String) (v : JValue) (h : k ≠ k') :
    dictDel (dictSet d k' v) k = dictSet (dictDel d k) k' v := by
  induction d with
  | nil => simp [dictSet, dictDel, Ne.symm h]
  | cons p rest ih =>
    by_cases hp : p.1 = k'
    · simp [dictSet_cons, dictDel_cons, hp, Ne.symm h, ih]
    · by_cases hpk : p.1 = k <;> simp [dictSet_cons, dictDel_cons, hp, hpk, ih, h]

theorem dictGet_isSome_iff_has (d : Dict) (k : String) :
    (dictGet d k).isSome = dictHas d k := by
  induction d with
  | nil => rfl
  | cons p rest ih =>
    by_cases hp : p.1 = k <;> simp [dictGet_cons, dictHas_cons, hp, ih]


theorem dictHas_iff_mem_keys (d : Dict) (k : String) :
    dictHas d k = true ↔ k ∈ d.map Prod.fst := by
  induction d with
  | nil =>
    constructor
    · intro h; exact absurd h (by simp [dictHas])
    · intro h; exact absurd h (by simp)
  | cons p rest ih =>
    simp only [dictHas_cons, Bool.or_eq_true, beq_iff_eq, ih, List.map_cons, List.mem_cons]
    constructor
    · rintro (h | h)
      · exact Or.inl h.symm
      · exact Or.inr h
    · rintro (h | h)
      · exact Or.inl h.symm
      · exact Or.inr h

theorem countKey_eq_zero (d : Dict) (k : String) (h : dictHas d k = false) :
    countKey d k = 0 := by
  induction d with
  | nil => rfl
  | cons p rest ih =>
    simp only [dictHas_cons, Bool.or_eq_false_iff] at h
    unfold countKey
    rw [List.filter_cons, if_neg (by simp [h.1])]
    exact ih h.2

theorem countKey_eq_one (d : Dict) (k : String) (hn : dictNodup d)
    (h : dictHas d k = true) : countKey d k = 1 := by
  induction d with
  | nil => simp [dictHas] at h
  | cons p rest ih =>
    simp only [dictNodup, List.map_cons, List.nodup_cons] at hn
    by_cases hp : p.1 = k
    · have hr : dictHas rest k = false := by
        by_contra hc
        exact hn.1 (hp ▸ (dictHas_iff_mem_keys rest k).mp (by simpa using hc))
      have h0 := countKey_eq_zero rest k hr
      unfold countKey at h0 ⊢
      rw [List.filter_cons, if_pos (by simp [hp])]
      simp [h0]
    · simp only [dictHas_cons, hp] at h
      unfold countKey
      rw [List.filter_cons, if_neg (by simp [hp])]
      exact ih hn.2 (by simpa [hp] using h)

theorem dictNodup_nil : dictNodup [] := by simp [dictNodup]

theorem dictNodup_set (d : Dict) (k : String) (v : JValue) (h : dictNodup d) :
    dictNodup (dictSet d k v) := by
  induction d with
  | nil => simp [dictSet, dictNodup]
  | cons p rest ih =>
    simp only [dictNodup, List.map_cons, List.nodup_cons] at h
    by_cases hp : p.1 = k
    · simp only [dictSet_cons, hp, if_true, dictNodup, List.map_cons, List.nodup_cons]
      exact ⟨hp ▸ h.1, h.2⟩
    · simp only [dictSet_cons, hp, if_false, dictNodup, List.map_cons, List.nodup_cons]
      refine ⟨fun hc => ?_, ih h.2⟩
      have := (dictHas_iff_mem_keys (dictSet rest k v) p.1).mpr hc
      rw [dictHas_set] at this
      rcases Bool.or_eq_true_iff.mp this with h1 | h2
      · exact h.1 ((dictHas_iff_mem_keys rest p.1).mp h1)
      · exact hp (by simpa using h2)

theorem dictNodup_del (d : Dict) (k : String) (h : dictNodup d) :
    dictNodup (dictDel d k) := by
  simp only [dictNodup, dictDel] at h ⊢
  exact List.Nodup.sublist (List.Sublist.map Prod.fst (List.filter_sublist d)) h

/-! ### Trace path helper lemmas -/

theorem writeItems_path (env : Env) (store : Store) (c : String) :
    ∀ (items : List JValue) (st : St) (w : WriteOp),
      w ∈ (writeItems env store c items st).2.1 → w.path = [c] := by
  intro items
  induction items with
  | nil => intro st w hw; simp [writeItems] at hw
  | cons x rest ih =>
    intro st w hw
    match x with
    | jobj m =>
      simp only [writeItems] at hw
      split at hw
      · rcases List.mem_cons.mp hw with h1 | h2
        · rw [h1]
        · exact ih _ w h2
      · rcases List.mem_cons.mp hw with h1 | h2
        · rw [h1]
        · simp at h2
    | jnull => exact ih _ w hw
    | jbool b => exact ih _ w hw
    | jnum n => exact ih _ w hw
    | jstr s => exact ih _ w hw
    | jdate a b => exact ih _ w hw
    | jarr xs => exact ih _ w hw

theorem writeArrayFields_path (env : Env) (store : Store) (declared : String) (data : Dict)
    (dryRun : Bool) :
    ∀ (fields : List String) (st : St) (w : WriteOp),
      w ∈ (writeArrayFields env store declared data fields dryRun st).2.1 →
      ∃ f, f ∈ fields ∧ w.path = [resolveCollection declared f] := by
  intro fields
  induction fields with
  | nil => intro st w hw; simp [writeArrayFields] at hw
  | cons f rest ih =>
    intro st w hw
    simp only [writeArrayFields] at hw
    split at hw
    · rcases ih _ w hw with ⟨g, hg, hp⟩
      exact ⟨g, List.mem_cons_of_mem _ hg, hp⟩
    · split at hw
      · rcases List.mem_append.mp hw with h1 | h2
        · exact ⟨f, List.mem_cons_self _ _, writeItems_path env store _ _ _ w h1⟩
        · rcases ih _ w h2 with ⟨g, hg, hp⟩
          exact ⟨g, List.mem_cons_of_mem _ hg, hp⟩
      · exact ⟨f, List.mem_cons_self _ _, writeItems_path env store _ _ _ w hw⟩

/-! ### Claim theorems -/

/-- C3: refuted as stated.  The claim predicts one trailing plural `s`
stripped, but the source's `rstrip('s')` strips every trailing `s`
("address" resolves to "addre", not "addres"); moreover the declared
collection-name override applies even to fields outside the alias table
("boss" with declared name "clients" resolves to "clients", not "bos"). -/
theorem c3_counterexample :
    collectionMap.find? (fun p => p.1 == "address") = none ∧
    resolveCollection "root" "address" = "addre" ∧ "addre" ≠ "addres" ∧
    collectionMap.find? (fun p => p.1 == "boss") = none ∧
    resolveCollection "clients" "boss" = "clients" ∧ "clients" ≠ "bos" :=
  ⟨rfl, by decide, by decide, rfl, by decide, by decide⟩

/-- C3 (amended): for an ArrayOfObjects field that is not an alias-table key,
and a declared collection name that is falsy or not an alias-table target
value, the target collection name is the field's own name with every trailing
`s` stripped when the name ends in `s`, and the unchanged name otherwise. -/
theorem c3_trailing_s_stripped (declared field : String)
    (hfield : collectionMap.find? (fun p => p.1 == field) = none)
    (hdecl : declared = "" ∨ collectionMapValues.contains declared = false) :
    resolveCollection declared field =
      (if endsWithS field then dropTrailingS field else field) := by
  have hg : (declared != "" && collectionMapValues.contains declared) = false := by
    rcases hdecl with h | h
    · subst h; rfl
    · rw [h, Bool.and_false]
  unfold resolveCollection
  rw [hfield, hg]
  rfl

/-- C3 witness: evaluated at the non-alias field "address". -/
theorem c3_trailing_s_stripped_witness : resolveCollection "root" "address" = "addre" :=
  (c3_trailing_s_stripped "root" "address" rfl (Or.inr rfl)).trans (by decide)

/-- C8: when the model's declared collection name equals some target value of
the alias table, it overrides the per-field derivation for every array field,
so every write of the array branch targets the declared collection. -/
theorem c8_declared_name_override :
    (∀ declared field, collectionMapValues.contains declared = true →
      resolveCollection declared field = declared) ∧
    (∀ (env : Env) (store : Store) (domain : String) (pm : ParsedModelData)
      (dryRun : Bool) (st : St), pm.shared_data = [] → arrayFields pm.data ≠ [] →
      collectionMapValues.contains pm.collection_name = true →
      ((pushToFirestore env store domain pm dryRun st).2.1.all
        (fun w => w.path == [pm.collection_name])) = true) := by
  have ha : ∀ declared field, collectionMapValues.contains declared = true →
      resolveCollection declared field = declared := by
    intro declared field h
    have hne : (declared != "") = true := by
      rcases eq_or_ne declared "" with he | he
      · subst he; exact absurd h (by decide)
      · simpa using he
    have hg : (declared != "" && collectionMapValues.contains declared) = true := by
      rw [hne, h]; rfl
    unfold resolveCollection
    rw [hg]
    simp
  refine ⟨ha, ?_⟩
  intro env store domain pm dryRun st hsh hne hcn
  have hafs : (arrayFields pm.data).isEmpty = false := by
    rw [List.isEmpty_eq_false]; exact hne
  rw [List.all_eq_true]
  intro w hw
  simp only [pushToFirestore, pushMainData, hsh, List.isEmpty_nil, Bool.not_true,
    Bool.not_false, if_true, if_false, hafs, List.nil_append] at hw
  rcases writeArrayFields_path env store pm.collection_name pm.data dryRun _ _ w hw
    with ⟨f, hf, hp⟩
  simp [hp, ha pm.collection_name f hcn]

/-- C8 witness: non-alias field "widgets" with declared name "clients"; the
one emitted write goes to the clients collection. -/
theorem c8_declared_name_override_witness :
    resolveCollection "clients" "widgets" = "clients" ∧
    ((pushToFirestore envT acceptAll "d" pmCase8 false { gen := 0, clk := 0 }).2.1.all
      (fun w => w.path == ["clients"])) = true :=
  ⟨c8_declared_name_override.1 "clients" "widgets" rfl,
   c8_declared_name_override.2 envT acceptAll "d" pmCase8 false { gen := 0, clk := 0 }
     rfl (by decide) rfl⟩

/-- C4: refuted as stated.  In the single-document branch a parseable
`deliveryDate` string is left verbatim (the branch checks only four date
names), although the array branch converts the same field of the same
environment to the store's temporal type. -/
theorem c4_counterexample :
    arrayFields pmCase4.data = [] ∧ singleObjectFields pmCase4.data = ["profile"] ∧
    dateFields6.contains "deliveryDate" = true ∧
    envDate.dparse "2024-01-02" = some { stamp := 55, tz := none } ∧
    ((pushToFirestore envDate acceptAll "d" pmCase4 false { gen := 0, clk := 0 }).2.1.map
      (fun w => dictGet w.data "deliveryDate")) = [some (jstr "2024-01-02")] ∧
    some (jstr "2024-01-02") ≠ some (normDT { stamp := 55, tz := none }) ∧
    ((pushToFirestore envDate acceptAll "d" pmCase4b false { gen := 0, clk := 0 }).2.1.map
      (fun w => dictGet w.data "deliveryDate")) = [some (normDT { stamp := 55, tz := none })] :=
  ⟨rfl, rfl, rfl, rfl, rfl, fun h => JValue.noConfusion (Option.some.inj h), rfl⟩

theorem date4_not_provenance (f : String) (hf : dateFields4.contains f = true) :
    f ≠ "_injectedAt" ∧ f ≠ "_injectedBy" ∧ f ≠ "_source" := by
  simp only [dateFields4, List.contains_cons, List.contains_nil, Bool.or_eq_true,
    beq_iff_eq] at hf
  rcases hf with h | h | h | h | h
  all_goals first
    | (subst h; exact ⟨by decide, by decide, by decide⟩)
    | exact absurd h (by simp)


theorem convertDatesByEntry_hit (dparse : String → Option PyDT) (f s : String) (dt : PyDT)
    (hf : dateFields4.contains f = true) (hdt : dparse s = some dt) :
    ∀ d : Dict, dictGet d f = some (jstr s) →
      dictGet (convertDatesByEntry dparse d).1 f = some (normDT dt) := by
  intro d
  induction d with
  | nil => intro h; simp [dictGet] at h
  | cons p rest ih =>
    intro h
    rw [dictGet_cons] at h
    rcases p with ⟨k, v⟩
    by_cases hk : k = f
    · simp only [hk, if_pos rfl] at h
      have hv : v = jstr s := by exact Option.some.inj h
      subst hv; subst hk
      simp only [convertDatesByEntry, hf, if_true, hdt]
      rw [dictGet_cons]
      simp
    · simp only [hk, if_neg hk] at h
      have hrec := ih h
      match v with
      | jstr s2 =>
        simp only [convertDatesByEntry]
        by_cases hc : dateFields4.contains k = true
        · simp only [hc, if_true]
          match hdp : dparse s2 with
          | some dt2 => rw [dictGet_cons]; simp [hk, hrec]
          | none => rw [dictGet_cons]; simp [hk, hrec]
        · simp only [eq_false_of_ne_true hc, Bool.false_eq_true, if_false]
          rw [dictGet_cons]; simp [hk, hrec]
      | jnull => simp only [convertDatesByEntry]; rw [dictGet_cons]; simp [hk, hrec]
      | jbool b => simp only [convertDatesByEntry]; rw [dictGet_cons]; simp [hk, hrec]
      | jnum n => simp only [convertDatesByEntry]; rw [dictGet_cons]; simp [hk, hrec]
      | jdate a b => simp only [convertDatesByEntry]; rw [dictGet_cons]; simp [hk, hrec]
      | jarr xs => simp only [convertDatesByEntry]; rw [dictGet_cons]; simp [hk, hrec]
      | jobj m => simp only [convertDatesByEntry]; rw [dictGet_cons]; simp [hk, hrec]


theorem convertDatesByEntry_miss (dparse : String → Option PyDT) (f : String)
    (hf : dateFields4.contains f = false) :
    ∀ d : Dict, dictGet (convertDatesByEntry dparse d).1 f = dictGet d f := by
  intro d
  induction d with
  | nil => rfl
  | cons p rest ih =>
    rcases p with ⟨k, v⟩
    match v with
    | jstr s2 =>
      simp only [convertDatesByEntry]
      by_cases hc : dateFields4.contains k = true
      · simp only [hc, if_true]
        have hk : k ≠ f := fun he => by rw [he, hf] at hc; exact Bool.false_ne_true hc
        match hdp : dparse s2 with
        | some dt2 => rw [dictGet_cons, dictGet_cons]; simp [hk, ih]
        | none => rw [dictGet_cons, dictGet_cons]; simp [hk, ih]
      · simp only [eq_false_of_ne_true hc, Bool.false_eq_true, if_false]
        rw [dictGet_cons, dictGet_cons]
        by_cases hk : k = f <;> simp [hk, ih]
    | jnull =>
      simp only [convertDatesByEntry]; rw [dictGet_cons, dictGet_cons]
      by_cases hk : k = f <;> simp [hk, ih]
    | jbool b =>
      simp only [convertDatesByEntry]; rw [dictGet_cons, dictGet_cons]
      by_cases hk : k = f <;> simp [hk, ih]
    | jnum n =>
      simp only [convertDatesByEntry]; rw [dictGet_cons, dictGet_cons]
      by_cases hk : k = f <;> simp [hk, ih]
    | jdate a b =>
      simp only [convertDatesByEntry]; rw [dictGet_cons, dictGet_cons]
      by_cases hk : k = f <;> simp [hk, ih]
    | jarr xs =>
      simp only [convertDatesByEntry]; rw [dictGet_cons, dictGet_cons]
      by_cases hk : k = f <;> simp [hk, ih]
    | jobj m =>
      simp only [convertDatesByEntry]; rw [dictGet_cons, dictGet_cons]
      by_cases hk : k = f <;> simp [hk, ih]

theorem dictGet_addProvenance_ne (ts uuid : String) (d : Dict) (f : String)
    (h1 : f ≠ "_injectedAt") (h2 : f ≠ "_injectedBy") (h3 : f ≠ "_source") :
    dictGet (addProvenance ts uuid d) f = dictGet d f := by
  unfold addProvenance
  rw [dictGet_set_ne _ _ _ _ h3, dictGet_set_ne _ _ _ _ h2, dictGet_set_ne _ _ _ _ h1]

theorem pushToFirestore_single_trace (env : Env) (store : Store) (domain : String)
    (pm : ParsedModelData) (st : St) (hsh : pm.shared_data = [])
    (harr : arrayFields pm.data = []) (hsof : singleObjectFields pm.data ≠ []) :
    pushToFirestore env store domain pm false st =
      (store { path := [pm.collection_name], docId := pm.document_id,
               data := addProvenance (env.clock st.clk) env.uuid
                 (convertDatesByEntry env.dparse pm.data).1, merge := false },
       [{ path := [pm.collection_name], docId := pm.document_id,
          data := addProvenance (env.clock st.clk) env.uuid
            (convertDatesByEntry env.dparse pm.data).1, merge := false }],
       (convertDatesByEntry env.dparse pm.data).2,
       { gen := st.gen, clk := st.clk + 1 }) := by
  have hsof2 : (singleObjectFields pm.data).isEmpty = false := by
    rw [List.isEmpty_eq_false]; exact hsof
  simp only [pushToFirestore, pushMainData, hsh, List.isEmpty_nil, Bool.not_true,
    Bool.not_false, Bool.false_eq_true, if_true, if_false, harr, hsof2, writeSingleDoc,
    List.nil_append]


/-- C4 (amended): the single-document branch parses only `createdAt`,
`updatedAt`, `conductedDate` and `scheduledDate` into the store's temporal
type (UTC assumed when the parsed text carries no zone); `deliveryDate` and
`completionDate` are left as the original strings. -/
theorem c4_single_doc_date_fields (env : Env) (store : Store) (domain : String)
    (pm : ParsedModelData) (st : St) (f s : String)
    (hsh : pm.shared_data = []) (harr : arrayFields pm.data = [])
    (hsof : singleObjectFields pm.data ≠ [])
    (hget : dictGet pm.data f = some (jstr s)) :
    (∀ dt : PyDT, dateFields4.contains f = true → env.dparse s = some dt →
      ((pushToFirestore env store domain pm false st).2.1.map
        (fun w => dictGet w.data f)) = [some (normDT dt)]) ∧
    (f = "deliveryDate" ∨ f = "completionDate" →
      ((pushToFirestore env store domain pm false st).2.1.map
        (fun w => dictGet w.data f)) = [some (jstr s)]) := by
  rw [pushToFirestore_single_trace env store domain pm st hsh harr hsof]
  constructor
  · intro dt hf hdt
    have hnp := date4_not_provenance f hf
    simp only [List.map_cons, List.map_nil]
    rw [dictGet_addProvenance_ne _ _ _ _ hnp.1 hnp.2.1 hnp.2.2,
      convertDatesByEntry_hit env.dparse f s dt hf hdt pm.data hget]
  · intro hf
    have hc : dateFields4.contains f = false := by
      rcases hf with h | h <;> (subst h; decide)
    have hnp : f ≠ "_injectedAt" ∧ f ≠ "_injectedBy" ∧ f ≠ "_source" := by
      rcases hf with h | h <;> (subst h; exact ⟨by decide, by decide, by decide⟩)
    simp only [List.map_cons, List.map_nil]
    rw [dictGet_addProvenance_ne _ _ _ _ hnp.1 hnp.2.1 hnp.2.2,
      convertDatesByEntry_miss env.dparse f hc pm.data, hget]

/-- C4 witness: in one concrete single-document write, `createdAt` is
converted while `deliveryDate` keeps its original string. -/
theorem c4_single_doc_date_fields_witness :
    ((pushToFirestore envDate acceptAll "d" pmCase4 false { gen := 0, clk := 0 }).2.1.map
      (fun w => dictGet w.data "createdAt")) = [some (normDT { stamp := 55, tz := none })] ∧
    ((pushToFirestore envDate acceptAll "d" pmCase4 false { gen := 0, clk := 0 }).2.1.map
      (fun w => dictGet w.data "deliveryDate")) = [some (jstr "2024-01-02")] :=
  ⟨(c4_single_doc_date_fields envDate acceptAll "d" pmCase4 { gen := 0, clk := 0 }
      "createdAt" "2024-01-02" rfl rfl (by decide) rfl).1
      { stamp := 55, tz := none } rfl rfl,
   (c4_single_doc_date_fields envDate acceptAll "d" pmCase4 { gen := 0, clk := 0 }
      "deliveryDate" "2024-01-02" rfl rfl (by decide) rfl).2 (Or.inl rfl)⟩


theorem dictGet_del_ne (d : Dict) (k k' : String) (h : k' ≠ k) :
    dictGet (dictDel d k) k' = dictGet d k' := by
  induction d with
  | nil => rfl
  | cons p rest ih =>
    by_cases hpk : p.1 = k
    · rw [dictDel_cons, if_pos hpk, ih, dictGet_cons, if_neg (fun he => h (he.symm.trans hpk))]
    · rw [dictDel_cons, if_neg hpk, dictGet_cons, dictGet_cons]
      by_cases hp : p.1 = k' <;> simp [hp, ih]

theorem pushShared_ok (env : Env) (store : Store) (domain : String) (dryRun : Bool) :
    ∀ (entities : List (String × SharedEntry)) (st : St),
      (pushShared env store domain dryRun entities st).1 =
        ((pushShared env store domain dryRun entities st).2.1.all store) := by
  intro entities
  induction entities with
  | nil => intro st; rfl
  | cons e rest ih =>
    intro st
    rcases e with ⟨n, e⟩
    simp only [pushShared]
    split
    · exact ih st
    · split
      · next hst => simp [hst, ih]
      · next hst => simp [Bool.not_eq_true _ ▸ hst]

theorem writeItems_ok (env : Env) (store : Store) (c : String) :
    ∀ (items : List JValue) (st : St),
      (writeItems env store c items st).1 =
        ((writeItems env store c items st).2.1.all store) := by
  intro items
  induction items with
  | nil => intro st; rfl
  | cons x rest ih =>
    intro st
    match x with
    | jobj m =>
      simp only [writeItems]
      split
      · next hst => simp [hst, ih]
      · next hst => simp [Bool.not_eq_true _ ▸ hst]
    | jnull => exact ih st
    | jbool b => exact ih st
    | jnum n => exact ih st
    | jstr s => exact ih st
    | jdate a b => exact ih st
    | jarr xs => exact ih st

theorem writeArrayFields_ok (env : Env) (store : Store) (declared : String) (data : Dict)
    (dryRun : Bool) :
    ∀ (fields : List String) (st : St),
      (writeArrayFields env store declared data fields dryRun st).1 =
        ((writeArrayFields env store declared data fields dryRun st).2.1.all store) := by
  intro fields
  induction fields with
  | nil => intro st; rfl
  | cons f rest ih =>
    intro st
    simp only [writeArrayFields]
    split
    · exact ih st
    · split
      · next hok =>
        have hall := writeItems_ok env store (resolveCollection declared f)
          (itemsOf data f) st
        rw [hok] at hall
        simp [List.all_append, ← hall, ih]
      · next hok =>
        have hall := writeItems_ok env store (resolveCollection declared f)
          (itemsOf data f) st
        simp only [Bool.not_eq_true] at hok
        rw [hok] at hall
        simp [← hall]

theorem pushMainData_ok (env : Env) (store : Store) (pm : ParsedModelData)
    (dryRun : Bool) (st : St) :
    (pushMainData env store pm dryRun st).1 =
      ((pushMainData env store pm dryRun st).2.1.all store) := by
  simp only [pushMainData]
  split
  · exact writeArrayFields_ok env store pm.collection_name pm.data dryRun _ st
  · split
    · simp only [writeSingleDoc]
      split
      · rfl
      · simp
    · simp only [writeFallback]
      split
      · rfl
      · simp

theorem pushToFirestore_ok (env : Env) (store : Store) (domain : String)
    (pm : ParsedModelData) (dryRun : Bool) (st : St) :
    (pushToFirestore env store domain pm dryRun st).1 =
      ((pushToFirestore env store domain pm dryRun st).2.1.all store) := by
  by_cases he : pm.shared_data.isEmpty = true
  · simp only [pushToFirestore, he, if_true, Bool.not_true, Bool.false_eq_true, if_false,
      List.nil_append]
    exact pushMainData_ok env store pm dryRun st
  · simp only [pushToFirestore, eq_false_of_ne_true he, Bool.false_eq_true, if_false]
    cases hs1 : (pushShared env store domain dryRun pm.shared_data st).1
    · have := pushShared_ok env store domain dryRun pm.shared_data st
      rw [hs1] at this
      simp [hs1, ← this]
    · have := pushShared_ok env store domain dryRun pm.shared_data st
      rw [hs1] at this
      simp [hs1, List.all_append, ← this, pushMainData_ok]


theorem convertDates_keep (dparse : String → Option PyDT) (f s : String)
    (hdp : dparse s = none) :
    ∀ (flds : List String) (m : Dict), dictGet m f = some (jstr s) →
      dictGet (convertDates dparse flds m).1 f = some (jstr s) := by
  intro flds
  induction flds with
  | nil => intro m hget; exact hget
  | cons g rest ih =>
    intro m hget
    by_cases hgf : g = f
    · subst hgf
      simp only [convertDates, hget, hdp]
      exact ih m hget
    · cases hg : dictGet m g with
      | none => simp only [convertDates, hg]; exact ih m hget
      | some v =>
        match v with
        | jstr s2 =>
          cases hd2 : dparse s2 with
          | none => simp only [convertDates, hg, hd2]; exact ih m hget
          | some dt =>
            simp only [convertDates, hg, hd2]
            exact ih _ (by rw [dictGet_set_ne _ _ _ _ (fun he => hgf he.symm)]; exact hget)
        | jnull => simp only [convertDates, hg]; exact ih m hget
        | jbool b => simp only [convertDates, hg]; exact ih m hget
        | jnum n => simp only [convertDates, hg]; exact ih m hget
        | jdate a b => simp only [convertDates, hg]; exact ih m hget
        | jarr xs => simp only [convertDates, hg]; exact ih m hget
        | jobj o => simp only [convertDates, hg]; exact ih m hget

theorem convertDates_warn (dparse : String → Option PyDT) (f s : String)
    (hdp : dparse s = none) :
    ∀ (flds : List String) (m : Dict), f ∈ flds → dictGet m f = some (jstr s) →
      f ∈ (convertDates dparse flds m).2 := by
  intro flds
  induction flds with
  | nil => intro m hmem _; exact absurd hmem (List.not_mem_nil f)
  | cons g rest ih =>
    intro m hmem hget
    by_cases hgf : g = f
    · subst hgf
      simp only [convertDates, hget, hdp]
      exact List.mem_cons_self _ _
    · have hmem2 : f ∈ rest := by
        rcases List.mem_cons.mp hmem with h | h
        · exact absurd h.symm hgf
        · exact h
      cases hg : dictGet m g with
      | none => simp only [convertDates, hg]; exact ih m hmem2 hget
      | some v =>
        match v with
        | jstr s2 =>
          cases hd2 : dparse s2 with
          | none =>
            simp only [convertDates, hg, hd2]
            exact List.mem_cons_of_mem _ (ih m hmem2 hget)
          | some dt =>
            simp only [convertDates, hg, hd2]
            exact ih _ hmem2
              (by rw [dictGet_set_ne _ _ _ _ (fun he => hgf he.symm)]; exact hget)
        | jnull => simp only [convertDates, hg]; exact ih m hmem2 hget
        | jbool b => simp only [convertDates, hg]; exact ih m hmem2 hget
        | jnum n => simp only [convertDates, hg]; exact ih m hmem2 hget
        | jdate a b => simp only [convertDates, hg]; exact ih m hmem2 hget
        | jarr xs => simp only [convertDates, hg]; exact ih m hmem2 hget
        | jobj o => simp only [convertDates, hg]; exact ih m hmem2 hget

theorem date6_not_special (f : String) (hf : f ∈ dateFields6) :
    f ≠ "id" ∧ f ≠ "_injectedAt" ∧ f ≠ "_injectedBy" ∧ f ≠ "_source" := by
  fin_cases hf <;> exact ⟨by decide, by decide, by decide, by decide⟩

theorem itemData_keeps (env : Env) (ts : String) (m : Dict) (f s : String)
    (hf : f ∈ dateFields6) (hget : dictGet m f = some (jstr s))
    (hdp : env.dparse s = none) :
    dictGet (itemData env ts m).1 f = some (jstr s) ∧ f ∈ (itemData env ts m).2 := by
  rcases date6_not_special f hf with ⟨h0, h1, h2, h3⟩
  constructor
  · simp only [itemData]
    rw [dictGet_del_ne _ _ _ h0, dictGet_addProvenance_ne _ _ _ _ h1 h2 h3]
    exact convertDates_keep env.dparse f s hdp dateFields6 m hget
  · exact convertDates_warn env.dparse f s hdp dateFields6 m hf hget

/-- C7: an unparseable well-known date field is retained verbatim in the
written item data, the field is reported as a warning, and no store-accepted
file ever counts as a failure (warnings are non-fatal). -/
theorem c7_unparseable_date_nonfatal :
    (∀ (env : Env) (store : Store) (domain : String) (pm : ParsedModelData)
        (dryRun : Bool) (st : St), (∀ w, store w = true) →
        (pushToFirestore env store domain pm dryRun st).1 = true) ∧
    (∀ (env : Env) (store : Store) (c : String) (m : Dict) (rest : List JValue)
        (st : St) (f s : String), f ∈ dateFields6 →
        dictGet m f = some (jstr s) → env.dparse s = none →
        ((writeItems env store c (jobj m :: rest) st).2.1.head?.map
          (fun w => dictGet w.data f)) = some (some (jstr s)) ∧
        f ∈ (writeItems env store c (jobj m :: rest) st).2.2.1) := by
  constructor
  · intro env store domain pm dryRun st hstore
    rw [pushToFirestore_ok]
    exact List.all_eq_true.mpr fun w _ => hstore w
  · intro env store c m rest st f s hf hget hdp
    have hitem := itemData_keeps env (env.clock st.clk) m f s hf hget hdp
    simp only [writeItems]
    split
    · exact ⟨by simp [hitem.1], List.mem_append_left _ hitem.2⟩
    · exact ⟨by simp [hitem.1], hitem.2⟩

/-- C7 witness: concrete unparseable `createdAt`, everything accepted. -/
theorem c7_unparseable_date_nonfatal_witness :
    (pushToFirestore envT acceptAll "d" pmCase7 false { gen := 0, clk := 0 }).1 = true ∧
    ((writeItems envT acceptAll "things" [jobj [("name", jstr "x"),
        ("createdAt", jstr "not-a-date")]] { gen := 0, clk := 0 }).2.1.head?.map
      (fun w => dictGet w.data "createdAt")) = some (some (jstr "not-a-date")) ∧
    "createdAt" ∈ (writeItems envT acceptAll "things" [jobj [("name", jstr "x"),
        ("createdAt", jstr "not-a-date")]] { gen := 0, clk := 0 }).2.2.1 := by
  refine ⟨c7_unparseable_date_nonfatal.1 envT acceptAll "d" pmCase7 false _ (fun w => rfl), ?_, ?_⟩
  · exact (c7_unparseable_date_nonfatal.2 envT acceptAll "things"
      [("name", jstr "x"), ("createdAt", jstr "not-a-date")] [] { gen := 0, clk := 0 }
      "createdAt" "not-a-date" (by decide) rfl rfl).1
  · exact (c7_unparseable_date_nonfatal.2 envT acceptAll "things"
      [("name", jstr "x"), ("createdAt", jstr "not-a-date")] [] { gen := 0, clk := 0 }
      "createdAt" "not-a-date" (by decide) rfl rfl).2


/-- C2: refuted as stated.  An array classified ArrayOfObjects by its first
element may hold non-dict items, which the per-item loop silently skips: a
two-element array produces one write, not two. -/
theorem c2_counterexample :
    arrayFields pmCase2.data = ["clients"] ∧
    itemsOf pmCase2.data "clients" = [jobj [("id", jstr "c1")], jnum 5] ∧
    (itemsOf pmCase2.data "clients").length = 2 ∧
    (pushToFirestore envT acceptAll "d" pmCase2 false { gen := 0, clk := 0 }).2.1.length = 1 ∧
    (1 : Nat) ≠ 2 :=
  ⟨rfl, rfl, rfl, rfl, by decide⟩

theorem writeItems_length (env : Env) (store : Store) (c : String)
    (hstore : ∀ w, store w = true) :
    ∀ (items : List JValue) (st : St),
      (writeItems env store c items st).2.1.length = (items.filter isObjValue).length := by
  intro items
  induction items with
  | nil => intro st; rfl
  | cons x rest ih =>
    intro st
    match x with
    | jobj m =>
      simp only [writeItems, hstore, if_true, List.filter_cons]
      simp [isObjValue, ih]
    | jnull => simpa [writeItems, List.filter_cons, isObjValue] using ih st
    | jbool b => simpa [writeItems, List.filter_cons, isObjValue] using ih st
    | jnum n => simpa [writeItems, List.filter_cons, isObjValue] using ih st
    | jstr s => simpa [writeItems, List.filter_cons, isObjValue] using ih st
    | jdate a b => simpa [writeItems, List.filter_cons, isObjValue] using ih st
    | jarr xs => simpa [writeItems, List.filter_cons, isObjValue] using ih st

theorem writeItems_no_id (env : Env) (store : Store) (c : String) :
    ∀ (items : List JValue) (st : St),
      ((writeItems env store c items st).2.1.all
        (fun w => !(dictHas w.data "id"))) = true := by
  intro items
  induction items with
  | nil => intro st; rfl
  | cons x rest ih =>
    intro st
    match x with
    | jobj m =>
      simp only [writeItems]
      split
      · simp [itemData, dictHas_del_self, ih]
      · simp [itemData, dictHas_del_self]
    | jnull => exact ih st
    | jbool b => exact ih st
    | jnum n => exact ih st
    | jstr s => exact ih st
    | jdate a b => exact ih st
    | jarr xs => exact ih st

theorem writeArrayFields_length (env : Env) (store : Store) (declared : String)
    (data : Dict) (hstore : ∀ w, store w = true) :
    ∀ (fields : List String) (st : St),
      (writeArrayFields env store declared data fields false st).2.1.length =
        (fields.map (fun f => ((itemsOf data f).filter isObjValue).length)).sum := by
  intro fields
  induction fields with
  | nil => intro st; rfl
  | cons f rest ih =>
    intro st
    have hok : (writeItems env store (resolveCollection declared f) (itemsOf data f) st).1
        = true := by
      rw [writeItems_ok]
      exact List.all_eq_true.mpr fun w _ => hstore w
    simp only [writeArrayFields, Bool.false_eq_true, if_false, hok, if_true,
      List.length_append, List.map_cons, List.sum_cons]
    rw [writeItems_length env store _ hstore, ih]

theorem pushToFirestore_array_trace (env : Env) (store : Store) (domain : String)
    (pm : ParsedModelData) (st : St) (hsh : pm.shared_data = [])
    (hafs : arrayFields pm.data ≠ []) :
    (pushToFirestore env store domain pm false st).2.1 =
      (writeArrayFields env store pm.collection_name pm.data (arrayFields pm.data)
        false st).2.1 := by
  have h2 : (arrayFields pm.data).isEmpty = false := by
    rw [List.isEmpty_eq_false]; exact hafs
  simp only [pushToFirestore, pushMainData, hsh, List.isEmpty_nil, Bool.not_true,
    Bool.not_false, Bool.false_eq_true, if_true, if_false, h2, List.nil_append]


theorem writeArrayFields_mem_writeItems (env : Env) (store : Store) (declared : String)
    (data : Dict) (dryRun : Bool) :
    ∀ (fields : List String) (st : St) (w : WriteOp),
      w ∈ (writeArrayFields env store declared data fields dryRun st).2.1 →
      ∃ (f : String) (st2 : St),
        w ∈ (writeItems env store (resolveCollection declared f) (itemsOf data f) st2).2.1 := by
  intro fields
  induction fields with
  | nil => intro st w hw; exact absurd hw (by simp [writeArrayFields])
  | cons f rest ih =>
    intro st w hw
    simp only [writeArrayFields] at hw
    split at hw
    · exact ih st w hw
    · split at hw
      · rcases List.mem_append.mp hw with h1 | h2
        · exact ⟨f, st, h1⟩
        · exact ih _ w h2
      · exact ⟨f, st, hw⟩

/-- C2 (amended): the number of writes for an ArrayOfObjects field equals the
number of keyed-structure items (equal to the array length when every item is
one); no write of the array branch carries an `id` field in its data; and a
truthy item id becomes the document id verbatim. -/
theorem c2_array_item_writes (env : Env) (store : Store) (domain : String)
    (pm : ParsedModelData) (st : St) (hsh : pm.shared_data = [])
    (hafs : arrayFields pm.data ≠ []) (hstore : ∀ w, store w = true) :
    (pushToFirestore env store domain pm false st).2.1.length =
      ((arrayFields pm.data).map
        (fun f => ((itemsOf pm.data f).filter isObjValue).length)).sum ∧
    ((pushToFirestore env store domain pm false st).2.1.all
      (fun w => !(dictHas w.data "id"))) = true ∧
    (∀ (items : List JValue), (∀ x ∈ items, isObjValue x = true) →
      ∀ (c : String) (st2 : St),
        (writeItems env store c items st2).2.1.length = items.length) ∧
    (∀ (c : String) (m : Dict) (rest : List JValue) (st2 : St) (v : JValue),
      dictGet m "id" = some v → pyTruthy v = true →
      ((writeItems env store c (jobj m :: rest) st2).2.1.head?.map
        (fun w => w.docId)) = some (pyStr v)) := by
  rw [pushToFirestore_array_trace env store domain pm st hsh hafs]
  refine ⟨?_, ?_, ?_, ?_⟩
  · exact writeArrayFields_length env store pm.collection_name pm.data hstore _ st
  · rw [List.all_eq_true]
    intro w hw
    rcases writeArrayFields_mem_writeItems env store pm.collection_name pm.data
      false _ st w hw with ⟨f, st2, hmem⟩
    have := writeItems_no_id env store (resolveCollection pm.collection_name f)
      (itemsOf pm.data f) st2
    exact List.all_eq_true.mp this w hmem
  · intro items hall c st2
    rw [writeItems_length env store c hstore items st2,
      List.filter_eq_self.mpr hall]
  · intro c m rest st2 v hid htr
    simp only [writeItems, itemDocId, hid, htr, if_true]
    split
    · rfl
    · rfl


/-- C2 witness: the heterogeneous model yields one id-free write; an all-dict
item list yields one write per item with the item's id as document id. -/
theorem c2_array_item_writes_witness :
    (pushToFirestore envT acceptAll "d" pmCase2 false { gen := 0, clk := 0 }).2.1.length = 1 ∧
    ((pushToFirestore envT acceptAll "d" pmCase2 false { gen := 0, clk := 0 }).2.1.all
      (fun w => !(dictHas w.data "id"))) = true ∧
    (writeItems envT acceptAll "clients" [jobj [("id", jstr "c1"), ("name", jstr "Acme")]]
      { gen := 0, clk := 0 }).2.1.length = 1 ∧
    ((writeItems envT acceptAll "clients" [jobj [("id", jstr "c1"), ("name", jstr "Acme")]]
      { gen := 0, clk := 0 }).2.1.head?.map (fun w => w.docId)) = some "c1" := by
  have h := c2_array_item_writes envT acceptAll "d" pmCase2 { gen := 0, clk := 0 }
    rfl (by decide) (fun w => rfl)
  refine ⟨h.1.trans (by rfl), h.2.1, ?_, ?_⟩
  · exact (h.2.2.1 [jobj [("id", jstr "c1"), ("name", jstr "Acme")]] (by decide)
      "clients" { gen := 0, clk := 0 }).trans (by rfl)
  · exact h.2.2.2 "clients" [("id", jstr "c1"), ("name", jstr "Acme")] []
      { gen := 0, clk := 0 } (jstr "c1") rfl rfl


theorem runFiles_total (env : Env) (store : Store) (domain : String) (dryRun : Bool) :
    ∀ (files : List FileInput) (st : St),
      (runFiles env store domain dryRun files st).1 +
        (runFiles env store domain dryRun files st).2.1 = files.length := by
  intro files
  induction files with
  | nil => intro st; rfl
  | cons f rest ih =>
    intro st
    simp only [runFiles]
    match hp : parse_model_file f.defaultColl f.raw with
    | none =>
      have := ih st
      simp only [List.length_cons]
      omega
    | some pm =>
      cases hok : (pushToFirestore env store domain pm dryRun st).1
      · have := ih (pushToFirestore env store domain pm dryRun st).2.2.2
        simp only [hok, Bool.false_eq_true, if_false, List.length_cons]
        omega
      · have := ih (pushToFirestore env store domain pm dryRun st).2.2.2
        simp only [hok, if_true, List.length_cons]
        omega

/-- C9: the process exits 0 exactly when no file failed, and exits 0 on zero
discovered files; successes and errors partition the file list; a file with
invalid JSON counts as one error while every remaining file is still
processed; a file whose push fails likewise; and a push fails exactly when
some attempted store write is rejected. -/
theorem c9_exit_and_error_handling :
    (∀ (env : Env) (store : Store) (domain : String) (dryRun : Bool)
        (files : List FileInput) (st : St),
      mainExit env store domain dryRun files st = 0 ↔
        (runFiles env store domain dryRun files st).2.1 = 0) ∧
    (∀ (env : Env) (store : Store) (domain : String) (dryRun : Bool) (st : St),
      mainExit env store domain dryRun [] st = 0) ∧
    (∀ (env : Env) (store : Store) (domain : String) (dryRun : Bool)
        (files : List FileInput) (st : St),
      (runFiles env store domain dryRun files st).1 +
        (runFiles env store domain dryRun files st).2.1 = files.length) ∧
    (∀ (env : Env) (store : Store) (domain : String) (dryRun : Bool) (dc : String)
        (rest : List FileInput) (st : St),
      runFiles env store domain dryRun ({ defaultColl := dc, raw := none } :: rest) st =
        ((runFiles env store domain dryRun rest st).1,
         (runFiles env store domain dryRun rest st).2.1 + 1,
         (runFiles env store domain dryRun rest st).2.2)) ∧
    (∀ (env : Env) (store : Store) (domain : String) (dryRun : Bool) (fi : FileInput)
        (pm : ParsedModelData) (rest : List FileInput) (st : St),
      parse_model_file fi.defaultColl fi.raw = some pm →
      (pushToFirestore env store domain pm dryRun st).1 = false →
      runFiles env store domain dryRun (fi :: rest) st =
        ((runFiles env store domain dryRun rest
            (pushToFirestore env store domain pm dryRun st).2.2.2).1,
         (runFiles env store domain dryRun rest
            (pushToFirestore env store domain pm dryRun st).2.2.2).2.1 + 1,
         (runFiles env store domain dryRun rest
            (pushToFirestore env store domain pm dryRun st).2.2.2).2.2)) ∧
    (∀ (env : Env) (store : Store) (domain : String) (pm : ParsedModelData)
        (dryRun : Bool) (st : St),
      (pushToFirestore env store domain pm dryRun st).1 = false ↔
        ∃ w ∈ (pushToFirestore env store domain pm dryRun st).2.1, store w = false) := by
  refine ⟨?_, ?_, ?_, ?_, ?_, ?_⟩
  · intro env store domain dryRun files st
    by_cases hef : files.isEmpty = true
    · have hnil : files = [] := List.isEmpty_iff.mp hef
      subst hnil
      simp [mainExit, runFiles]
    · simp only [mainExit, hef, Bool.false_eq_true, if_false]
      split
      · next he => simp [beq_iff_eq.mp he]
      · next he =>
        constructor
        · intro h; exact absurd h (by decide)
        · intro h; exact absurd (by simpa using h) (by simpa using he)
  · intro env store domain dryRun st; rfl
  · exact fun env store domain dryRun files st => runFiles_total env store domain dryRun files st
  · intro env store domain dryRun dc rest st; rfl
  · intro env store domain dryRun fi pm rest st hp hok
    simp only [runFiles, hp, hok, Bool.false_eq_true, if_false]
  · intro env store domain pm dryRun st
    rw [pushToFirestore_ok]
    constructor
    · intro h
      by_contra hc
      push_neg at hc
      have hall : ((pushToFirestore env store domain pm dryRun st).2.1.all store) = true := by
        rw [List.all_eq_true]
        intro w hw
        cases hst : store w
        · exact absurd hst (hc w hw)
        · rfl
      rw [hall] at h
      exact absurd h (by decide)
    · intro hex
      rcases hex with ⟨w, hw, hsw⟩
      cases hall : ((pushToFirestore env store domain pm dryRun st).2.1.all store)
      · rfl
      · exact absurd (List.all_eq_true.mp hall w hw) (by simp [hsw])


/-- C9 witness: zero files exit 0; one malformed file counts one error; an
accepted file run exits 0; a rejecting store fails the file's push. -/
theorem c9_exit_and_error_handling_witness :
    mainExit envT acceptAll "d" false [] { gen := 0, clk := 0 } = 0 ∧
    runFiles envT acceptAll "d" false [{ defaultColl := "a", raw := none }]
      { gen := 0, clk := 0 } = (0, 1, { gen := 0, clk := 0 }) ∧
    mainExit envT acceptAll "d" false [{ defaultColl := "dash", raw := some [("a", jnum 1)] }]
      { gen := 0, clk := 0 } = 0 ∧
    (pushToFirestore envT rejectAll "d" pmCase9 false { gen := 0, clk := 0 }).1 = false := by
  have h := c9_exit_and_error_handling
  refine ⟨h.2.1 envT acceptAll "d" false _, ?_, ?_, ?_⟩
  · exact (h.2.2.2.1 envT acceptAll "d" false "a" [] _).trans (by rfl)
  · exact (h.1 envT acceptAll "d" false _ _).mpr (by rfl)
  · exact (h.2.2.2.2.2 envT rejectAll "d" pmCase9 false _).mpr (by decide)


theorem sharedPath_shape (domain c : String) :
    ∃ x xs, sharedPath domain c = ("project-" ++ domain) :: x :: xs := by
  show ∃ x xs,
    (if (pySplitSlash c).length == 2 then ("project-" ++ domain) :: pySplitSlash c
     else ["project-" ++ domain, c]) = ("project-" ++ domain) :: x :: xs
  split
  · next hl =>
    match hp : pySplitSlash c with
    | [] => rw [hp] at hl; exact absurd hl (by decide)
    | x :: xs => exact ⟨x, xs, rfl⟩
  · exact ⟨c, [], rfl⟩

theorem pushShared_shape (env : Env) (store : Store) (domain : String) (dryRun : Bool) :
    ∀ (entities : List (String × SharedEntry)) (st : St),
      ((pushShared env store domain dryRun entities st).2.1.all
        (fun w => underProjectRoot domain w && w.merge && (w.docId == "main"))) = true := by
  intro entities
  induction entities with
  | nil => intro st; rfl
  | cons e rest ih =>
    intro st
    rcases e with ⟨n, e⟩
    have hup : underProjectRoot domain
        { path := sharedPath domain e.collection, docId := "main",
          data := addProvenance (env.clock st.clk) env.uuid e.data,
          merge := true } = true := by
      rcases sharedPath_shape domain e.collection with ⟨x, xs, hsp⟩
      simp [underProjectRoot, hsp]
    simp only [pushShared]
    split
    · exact ih st
    · split
      · simp [hup, ih]
      · simp [hup]

theorem writeItems_shape (env : Env) (store : Store) (c : String) :
    ∀ (items : List JValue) (st : St),
      ((writeItems env store c items st).2.1.all
        (fun w => (w.path == [c]) && !w.merge)) = true := by
  intro items
  induction items with
  | nil => intro st; rfl
  | cons x rest ih =>
    intro st
    match x with
    | jobj m =>
      simp only [writeItems]
      split
      · simp [ih]
      · simp
    | jnull => exact ih st
    | jbool b => exact ih st
    | jnum n => exact ih st
    | jstr s => exact ih st
    | jdate a b => exact ih st
    | jarr xs => exact ih st

theorem pushMainData_shape (env : Env) (store : Store) (pm : ParsedModelData)
    (dryRun : Bool) (domain : String) (st : St) :
    ((pushMainData env store pm dryRun st).2.1.all
      (fun w => (w.path.length == 1) && !underProjectRoot domain w && !w.merge)) = true := by
  rw [List.all_eq_true]
  intro w hw
  have hshape : (∃ cn, w.path = [cn]) ∧ w.merge = false := by
    simp only [pushMainData] at hw
    split at hw
    · rcases writeArrayFields_mem_writeItems env store pm.collection_name pm.data
        dryRun _ st w hw with ⟨f, st2, hmem⟩
      have := List.all_eq_true.mp
        (writeItems_shape env store (resolveCollection pm.collection_name f)
          (itemsOf pm.data f) st2) w hmem
      simp only [Bool.and_eq_true, beq_iff_eq, Bool.not_eq_true'] at this
      exact ⟨⟨_, this.1⟩, this.2⟩
    · split at hw
      · simp only [writeSingleDoc] at hw
        split at hw
        · simp at hw
        · rcases List.mem_singleton.mp hw with rfl
          exact ⟨⟨pm.collection_name, rfl⟩, rfl⟩
      · simp only [writeFallback] at hw
        split at hw
        · simp at hw
        · rcases List.mem_singleton.mp hw with rfl
          exact ⟨⟨pm.collection_name, rfl⟩, rfl⟩
  rcases hshape with ⟨⟨cn, hp⟩, hm⟩
  simp [hp, hm, underProjectRoot]

theorem sharedIf_eq (env : Env) (store : Store) (domain : String)
    (pm : ParsedModelData) (dryRun : Bool) (st : St) :
    (if pm.shared_data.isEmpty then ((true : Bool), ([] : List WriteOp), st)
      else pushShared env store domain dryRun pm.shared_data st) =
      pushShared env store domain dryRun pm.shared_data st := by
  split
  · next he => rw [List.isEmpty_iff.mp he]; rfl
  · rfl

theorem pushToFirestore_decomp (env : Env) (store : Store) (domain : String)
    (pm : ParsedModelData) (dryRun : Bool) (st : St) :
    (pushToFirestore env store domain pm dryRun st).2.1 =
      (pushShared env store domain dryRun pm.shared_data st).2.1 ++
        (if (pushShared env store domain dryRun pm.shared_data st).1 then
          (pushMainData env store pm dryRun
            (pushShared env store domain dryRun pm.shared_data st).2.2).2.1
        else []) := by
  simp only [pushToFirestore, sharedIf_eq]
  cases hok : (pushShared env store domain dryRun pm.shared_data st).1
  · simp [hok]
  · simp [hok]


/-- C6: every shared-entity write of a file is attempted strictly before any
main-payload write, and a failed shared write aborts the file with no
main-payload write attempted. -/
theorem c6_shared_strictly_before_main :
    ∀ (env : Env) (store : Store) (domain : String) (pm : ParsedModelData)
      (dryRun : Bool) (st : St),
    (pushToFirestore env store domain pm dryRun st).2.1 =
      (pushShared env store domain dryRun pm.shared_data st).2.1 ++
        (if (pushShared env store domain dryRun pm.shared_data st).1 then
          (pushMainData env store pm dryRun
            (pushShared env store domain dryRun pm.shared_data st).2.2).2.1
        else []) ∧
    ((pushShared env store domain dryRun pm.shared_data st).1 = false →
      (pushToFirestore env store domain pm dryRun st).2.1 =
        (pushShared env store domain dryRun pm.shared_data st).2.1 ∧
      (pushToFirestore env store domain pm dryRun st).1 = false) := by
  intro env store domain pm dryRun st
  refine ⟨pushToFirestore_decomp env store domain pm dryRun st, fun hf => ⟨?_, ?_⟩⟩
  · rw [pushToFirestore_decomp env store domain pm dryRun st, hf]
    simp
  · simp [pushToFirestore, sharedIf_eq, hf]

/-- C6 witness: a rejecting store fails the shared write of a concrete model;
the file's trace is the shared attempt alone and the file fails. -/
theorem c6_shared_strictly_before_main_witness :
    (pushToFirestore envT rejectAll "d" pmCase6 false { gen := 0, clk := 0 }).2.1 =
      (pushShared envT rejectAll "d" false pmCase6.shared_data { gen := 0, clk := 0 }).2.1 ∧
    (pushToFirestore envT rejectAll "d" pmCase6 false { gen := 0, clk := 0 }).1 = false :=
  (c6_shared_strictly_before_main envT rejectAll "d" pmCase6 false
    { gen := 0, clk := 0 }).2 rfl

/-- C10: shared-entity writes are merge-writes to `main` strictly under the
project root; every main-payload write (array item, single document or
fallback) targets a single-segment top-level collection, never under the
project root. -/
theorem c10_project_root_placement :
    ∀ (env : Env) (store : Store) (domain : String) (pm : ParsedModelData)
      (dryRun : Bool) (st st2 : St),
    ((pushShared env store domain dryRun pm.shared_data st).2.1.all
      (fun w => underProjectRoot domain w && w.merge && (w.docId == "main"))) = true ∧
    ((pushMainData env store pm dryRun st2).2.1.all
      (fun w => (w.path.length == 1) && !underProjectRoot domain w && !w.merge)) = true ∧
    (pushToFirestore env store domain pm dryRun st).2.1 =
      (pushShared env store domain dryRun pm.shared_data st).2.1 ++
        (if (pushShared env store domain dryRun pm.shared_data st).1 then
          (pushMainData env store pm dryRun
            (pushShared env store domain dryRun pm.shared_data st).2.2).2.1
        else []) :=
  fun env store domain pm dryRun st st2 =>
    ⟨pushShared_shape env store domain dryRun pm.shared_data st,
     pushMainData_shape env store pm dryRun domain st2,
     pushToFirestore_decomp env store domain pm dryRun st⟩

/-- C10 witness: evaluated on a concrete model with one shared entity and a
fallback payload. -/
theorem c10_project_root_placement_witness :
    ((pushShared envT acceptAll "d" false pmCase6.shared_data { gen := 0, clk := 0 }).2.1.all
      (fun w => underProjectRoot "d" w && w.merge && (w.docId == "main"))) = true ∧
    ((pushMainData envT acceptAll pmCase6 false { gen := 0, clk := 0 }).2.1.all
      (fun w => (w.path.length == 1) && !underProjectRoot "d" w && !w.merge)) = true :=
  ⟨(c10_project_root_placement envT acceptAll "d" pmCase6 false { gen := 0, clk := 0 }
      { gen := 0, clk := 0 }).1,
   (c10_project_root_placement envT acceptAll "d" pmCase6 false { gen := 0, clk := 0 }
      { gen := 0, clk := 0 }).2.1⟩


theorem fieldsContain_cons (v : JValue) (rest : List JValue) (f : String) :
    fieldsContain (v :: rest) f =
      ((match v with | jstr s => s == f | _ => false) || fieldsContain rest f) := by
  simp [fieldsContain]

theorem dictDel_absent_pres (d : Dict) (k f : String) (h : dictHas d f = false) :
    dictHas (dictDel d k) f = false := by
  by_cases hfk : f = k
  · rw [hfk]; exact dictHas_del_self d k
  · rw [dictHas_del_ne d k f hfk]; exact h

theorem collectFields_has_mono :
    ∀ (fields : List JValue) (data obj : Dict) (k : String),
      dictHas (collectFields fields data obj).1 k = true → dictHas data k = true := by
  intro fields
  induction fields with
  | nil => intro data obj k h; exact h
  | cons v rest ih =>
    intro data obj k h
    match v with
    | jstr g =>
      simp only [collectFields] at h
      cases hd : dictGet data g with
      | some v2 =>
        rw [hd] at h
        exact dictHas_del_mono data g k (ih _ _ k h)
      | none =>
        rw [hd] at h
        exact ih _ _ k h
    | jnull => exact ih _ _ k h
    | jbool b => exact ih _ _ k h
    | jnum n => exact ih _ _ k h
    | jdate a b => exact ih _ _ k h
    | jarr xs => exact ih _ _ k h
    | jobj m => exact ih _ _ k h

theorem collectFields_absent_pres (fields : List JValue) (data obj : Dict) (f : String)
    (h : dictHas data f = false) : dictHas (collectFields fields data obj).1 f = false := by
  cases hres : dictHas (collectFields fields data obj).1 f with
  | false => rfl
  | true => exact absurd (collectFields_has_mono fields data obj f hres) (by simp [h])

theorem collectFields_absent :
    ∀ (fields : List JValue) (data obj : Dict) (f : String),
      fieldsContain fields f = true →
      dictHas (collectFields fields data obj).1 f = false := by
  intro fields
  induction fields with
  | nil => intro data obj f h; exact absurd h (by simp [fieldsContain])
  | cons v rest ih =>
    intro data obj f h
    rw [fieldsContain_cons] at h
    match v with
    | jstr g =>
      by_cases hgf : g = f
      · subst hgf
        simp only [collectFields]
        cases hd : dictGet data g with
        | some v2 =>
          exact collectFields_absent_pres rest _ _ g (dictHas_del_self data g)
        | none =>
          refine collectFields_absent_pres rest _ _ g ?_
          have := dictGet_isSome_iff_has data g
          rw [hd] at this
          exact this.symm ▸ rfl
      · have hrest : fieldsContain rest f = true := by
          simpa [hgf] using h
        simp only [collectFields]
        cases hd : dictGet data g with
        | some v2 => exact ih _ _ f hrest
        | none => exact ih _ _ f hrest
    | jnull => exact ih _ _ f (by simpa using h)
    | jbool b => exact ih _ _ f (by simpa using h)
    | jnum n => exact ih _ _ f (by simpa using h)
    | jdate a b => exact ih _ _ f (by simpa using h)
    | jarr xs => exact ih _ _ f (by simpa using h)
    | jobj m => exact ih _ _ f (by simpa using h)


theorem collectFields_obj_mono :
    ∀ (fields : List JValue) (data obj : Dict) (f : String),
      dictHas obj f = true → dictHas (collectFields fields data obj).2 f = true := by
  intro fields
  induction fields with
  | nil => intro data obj f h; exact h
  | cons v rest ih =>
    intro data obj f h
    match v with
    | jstr g =>
      simp only [collectFields]
      cases hd : dictGet data g with
      | some v2 => exact ih _ _ f (by rw [dictHas_set]; simp [h])
      | none => exact ih _ _ f h
    | jnull => exact ih _ _ f h
    | jbool b => exact ih _ _ f h
    | jnum n => exact ih _ _ f h
    | jdate a b => exact ih _ _ f h
    | jarr xs => exact ih _ _ f h
    | jobj m => exact ih _ _ f h

theorem collectFields_collects :
    ∀ (fields : List JValue) (data obj : Dict) (f : String),
      fieldsContain fields f = true → (dictHas data f || dictHas obj f) = true →
      dictHas (collectFields fields data obj).2 f = true := by
  intro fields
  induction fields with
  | nil => intro data obj f h _; exact absurd h (by simp [fieldsContain])
  | cons v rest ih =>
    intro data obj f h hpre
    rw [fieldsContain_cons] at h
    match v with
    | jstr g =>
      simp only [collectFields]
      by_cases hgf : g = f
      · subst hgf
        cases hd : dictGet data g with
        | some v2 =>
          exact collectFields_obj_mono rest _ _ g (by rw [dictHas_set]; simp)
        | none =>
          have hnd : dictHas data g = false := by
            have := dictGet_isSome_iff_has data g
            rw [hd] at this
            exact this.symm ▸ rfl
          have hobj : dictHas obj g = true := by
            rcases Bool.or_eq_true_iff.mp hpre with h1 | h1
            · rw [hnd] at h1; exact absurd h1 (by simp)
            · exact h1
          exact collectFields_obj_mono rest _ _ g hobj
      · have hrest : fieldsContain rest f = true := by simpa [hgf] using h
        cases hd : dictGet data g with
        | some v2 =>
          refine ih _ _ f hrest ?_
          rcases Bool.or_eq_true_iff.mp hpre with h1 | h1
          · rw [dictHas_del_ne data g f (fun he => hgf he.symm), h1]
            simp
          · rw [dictHas_set]
            simp [h1]
        | none => exact ih _ _ f hrest hpre
    | jnull => exact ih _ _ f (by simpa using h) hpre
    | jbool b => exact ih _ _ f (by simpa using h) hpre
    | jnum n => exact ih _ _ f (by simpa using h) hpre
    | jdate a b => exact ih _ _ f (by simpa using h) hpre
    | jarr xs => exact ih _ _ f (by simpa using h) hpre
    | jobj m => exact ih _ _ f (by simpa using h) hpre

theorem collectFields_obj_nodup :
    ∀ (fields : List JValue) (data obj : Dict),
      dictNodup obj → dictNodup (collectFields fields data obj).2 := by
  intro fields
  induction fields with
  | nil => intro data obj h; exact h
  | cons v rest ih =>
    intro data obj h
    match v with
    | jstr g =>
      simp only [collectFields]
      cases hd : dictGet data g with
      | some v2 => exact ih _ _ (dictNodup_set obj g v2 h)
      | none => exact ih _ _ h
    | jnull => exact ih _ _ h
    | jbool b => exact ih _ _ h
    | jnum n => exact ih _ _ h
    | jdate a b => exact ih _ _ h
    | jarr xs => exact ih _ _ h
    | jobj m => exact ih _ _ h

theorem mergeEntityObject_mono :
    ∀ (fields : List JValue) (m : List (String × JValue)) (obj : Dict) (f : String),
      dictHas obj f = true → dictHas (mergeEntityObject fields m obj) f = true := by
  intro fields m
  induction m with
  | nil => intro obj f h; exact h
  | cons p rest ih =>
    intro obj f h
    rcases p with ⟨k, v⟩
    simp only [mergeEntityObject]
    split
    · exact ih _ f (by rw [dictHas_set]; simp [h])
    · exact ih _ f h

theorem mergeEntityObject_nodup :
    ∀ (fields : List JValue) (m : List (String × JValue)) (obj : Dict),
      dictNodup obj → dictNodup (mergeEntityObject fields m obj) := by
  intro fields m
  induction m with
  | nil => intro obj h; exact h
  | cons p rest ih =>
    intro obj h
    rcases p with ⟨k, v⟩
    simp only [mergeEntityObject]
    split
    · exact ih _ (dictNodup_set obj k v h)
    · exact ih _ h


theorem processSharedEntity_spec (name : String) (cfg data : Dict)
    (res : Dict × Option (String × SharedEntry))
    (h : processSharedEntity name cfg data = some res) :
    ∃ (coll : String) (fields : List JValue),
      (dictGet cfg "fields" = none ∧ fields = [] ∨
        ∃ xs, dictGet cfg "fields" = some (jarr xs) ∧ fields = xs) ∧
      res = ((match dictGet (collectFields fields data []).1 name with
              | some (jobj m) =>
                (dictDel (collectFields fields data []).1 name,
                 mergeEntityObject fields m (collectFields fields data []).2)
              | _ => collectFields fields data []).1,
             if (match dictGet (collectFields fields data []).1 name with
                 | some (jobj m) =>
                   (dictDel (collectFields fields data []).1 name,
                    mergeEntityObject fields m (collectFields fields data []).2)
                 | _ => collectFields fields data []).2.isEmpty then none
             else some (name,
               { collection := coll, fields := fields,
                 data := (match dictGet (collectFields fields data []).1 name with
                          | some (jobj m) =>
                            (dictDel (collectFields fields data []).1 name,
                             mergeEntityObject fields m (collectFields fields data []).2)
                          | _ => collectFields fields data []).2 })) := by
  simp only [processSharedEntity] at h
  split at h
  · exact absurd h (by simp)
  · next coll hcol =>
    split at h
    · exact absurd h (by simp)
    · next fields hfs =>
      refine ⟨coll, fields, ?_, ?_⟩
      · revert hfs
        cases hg : dictGet cfg "fields" with
        | none => intro hfs; exact Or.inl ⟨rfl, by injection hfs with h2; exact h2.symm⟩
        | some v =>
          match v with
          | jarr xs =>
            intro hfs
            refine Or.inr ⟨xs, rfl, ?_⟩
            by_cases hh : fieldsHashable xs = true
            · simp only [hh, if_true] at hfs
              exact (Option.some.inj hfs).symm
            · simp only [hh, Bool.false_eq_true, if_false] at hfs
              exact absurd hfs (by simp)
          | jnull => intro hfs; exact absurd hfs (by simp)
          | jbool b => intro hfs; exact absurd hfs (by simp)
          | jnum n => intro hfs; exact absurd hfs (by simp)
          | jstr s => intro hfs; exact absurd hfs (by simp)
          | jdate a b => intro hfs; exact absurd hfs (by simp)
          | jobj m => intro hfs; exact absurd hfs (by simp)
      · injection h with h2
        exact h2.symm


theorem processSharedEntity_cases (name : String) (cfg data : Dict)
    (res : Dict × Option (String × SharedEntry))
    (h : processSharedEntity name cfg data = some res) :
    ∃ (coll : String) (fields : List JValue),
      (dictGet cfg "fields" = none ∧ fields = [] ∨
        ∃ xs, dictGet cfg "fields" = some (jarr xs) ∧ fields = xs) ∧
      ((∃ m, dictGet (collectFields fields data []).1 name = some (jobj m) ∧
          res = (dictDel (collectFields fields data []).1 name,
            if (mergeEntityObject fields m (collectFields fields data []).2).isEmpty
            then none
            else some (name,
              ⟨coll, fields, mergeEntityObject fields m (collectFields fields data []).2⟩))) ∨
        res = ((collectFields fields data []).1,
          if (collectFields fields data []).2.isEmpty then none
          else some (name, ⟨coll, fields, (collectFields fields data []).2⟩))) := by
  rcases processSharedEntity_spec name cfg data res h with ⟨coll, fields, hfe, hres⟩
  refine ⟨coll, fields, hfe, ?_⟩
  rcases hm : dictGet (collectFields fields data []).1 name with _ | v
  · rw [hm] at hres
    exact Or.inr hres
  · match v with
    | jobj m =>
      rw [hm] at hres
      exact Or.inl ⟨m, rfl, hres⟩
    | jnull => rw [hm] at hres; exact Or.inr hres
    | jbool b => rw [hm] at hres; exact Or.inr hres
    | jnum n => rw [hm] at hres; exact Or.inr hres
    | jstr s => rw [hm] at hres; exact Or.inr hres
    | jdate a b => rw [hm] at hres; exact Or.inr hres
    | jarr xs => rw [hm] at hres; exact Or.inr hres


theorem dictHas_isEmpty_false (d : Dict) (f : String) (h : dictHas d f = true) :
    d.isEmpty = false := by
  cases d with
  | nil => exact absurd h (by simp [dictHas])
  | cons p rest => rfl

theorem processSharedEntity_has_mono (name : String) (cfg data : Dict)
    (res : Dict × Option (String × SharedEntry)) (k : String)
    (h : processSharedEntity name cfg data = some res)
    (hk : dictHas res.1 k = true) : dictHas data k = true := by
  rcases processSharedEntity_cases name cfg data res h with ⟨coll, fields, hfe, hcase⟩
  rcases hcase with ⟨m, hm, hres⟩ | hres
  · rw [hres] at hk
    exact collectFields_has_mono fields data [] k (dictHas_del_mono _ name k hk)
  · rw [hres] at hk
    exact collectFields_has_mono fields data [] k hk

theorem processSharedEntity_absent (name : String) (cfg data : Dict)
    (res : Dict × Option (String × SharedEntry)) (n2 : String) (e : SharedEntry)
    (f : String)
    (h : processSharedEntity name cfg data = some res)
    (hopt : res.2 = some (n2, e))
    (hf : fieldsContain e.fields f = true) :
    dictHas res.1 f = false := by
  rcases processSharedEntity_cases name cfg data res h with ⟨coll, fields, hfe, hcase⟩
  rcases hcase with ⟨m, hm, hres⟩ | hres
  · rw [hres] at hopt
    have hef : e.fields = fields := by
      by_cases hie :
          (mergeEntityObject fields m (collectFields fields data []).2).isEmpty = true
      · rw [if_pos hie] at hopt
        exact absurd hopt (by simp)
      · rw [if_neg hie] at hopt
        have he := Option.some.inj hopt
        have he2 : e =
            ⟨coll, fields, mergeEntityObject fields m (collectFields fields data []).2⟩ :=
          (congrArg Prod.snd he).symm
        rw [he2]
    rw [hres]
    exact dictDel_absent_pres _ name f (collectFields_absent fields data [] f (hef ▸ hf))
  · rw [hres] at hopt
    have hef : e.fields = fields := by
      by_cases hie : (collectFields fields data []).2.isEmpty = true
      · rw [if_pos hie] at hopt
        exact absurd hopt (by simp)
      · rw [if_neg hie] at hopt
        have he := Option.some.inj hopt
        have he2 : e = ⟨coll, fields, (collectFields fields data []).2⟩ :=
          (congrArg Prod.snd he).symm
        rw [he2]
    rw [hres]
    exact collectFields_absent fields data [] f (hef ▸ hf)

theorem processSharedEntity_collects (name : String) (cfg data : Dict)
    (res : Dict × Option (String × SharedEntry)) (fs : List JValue) (f : String)
    (h : processSharedEntity name cfg data = some res)
    (hfs : dictGet cfg "fields" = some (jarr fs))
    (hf : fieldsContain fs f = true)
    (hd : dictHas data f = true) :
    ∃ e : SharedEntry, res.2 = some (name, e) ∧ countKey e.data f = 1 := by
  rcases processSharedEntity_cases name cfg data res h with ⟨coll, fields, hfe, hcase⟩
  have hffs : fields = fs := by
    rcases hfe with ⟨h1, _⟩ | ⟨xs, h1, h2⟩
    · rw [h1] at hfs; exact absurd hfs (by simp)
    · rw [h1] at hfs
      have := Option.some.inj hfs
      rw [h2, JValue.jarr.inj this]
  subst hffs
  have hobj : dictHas (collectFields fields data []).2 f = true :=
    collectFields_collects fields data [] f hf (by simp [hd])
  have hnd : dictNodup (collectFields fields data []).2 :=
    collectFields_obj_nodup fields data [] dictNodup_nil
  rcases hcase with ⟨m, hm, hres⟩ | hres
  · have hobj2 := mergeEntityObject_mono fields m (collectFields fields data []).2 f hobj
    have hnd2 := mergeEntityObject_nodup fields m (collectFields fields data []).2 hnd
    have hne := dictHas_isEmpty_false _ f hobj2
    rw [hres]
    refine ⟨⟨coll, fields, mergeEntityObject fields m (collectFields fields data []).2⟩,
      ?_, countKey_eq_one _ f hnd2 hobj2⟩
    simp only [hne, Bool.false_eq_true, if_false]
  · have hne := dictHas_isEmpty_false _ f hobj
    rw [hres]
    refine ⟨⟨coll, fields, (collectFields fields data []).2⟩,
      ?_, countKey_eq_one _ f hnd hobj⟩
    simp only [hne, Bool.false_eq_true, if_false]


theorem processSharedEntity_absent_pres (name : String) (cfg data : Dict)
    (res : Dict × Option (String × SharedEntry)) (f : String)
    (h : processSharedEntity name cfg data = some res)
    (hf : dictHas data f = false) : dictHas res.1 f = false := by
  cases hres : dictHas res.1 f with
  | false => rfl
  | true =>
    exact absurd (processSharedEntity_has_mono name cfg data res f h hres) (by simp [hf])

theorem processSharedConfig_absent :
    ∀ (entries : List (String × JValue)) (data : Dict) (acc : List (String × SharedEntry))
      (data' : Dict) (acc' : List (String × SharedEntry)),
      processSharedConfig entries data acc = some (data', acc') →
      (∀ n e f, (n, e) ∈ acc → fieldsContain e.fields f = true → dictHas data f = false) →
      ∀ n e f, (n, e) ∈ acc' → fieldsContain e.fields f = true → dictHas data' f = false := by
  intro entries
  induction entries with
  | nil =>
    intro data acc data' acc' h hinv n e f hm hf
    simp only [processSharedConfig] at h
    have h1 := Option.some.inj h
    have hd : data = data' := congrArg Prod.fst h1
    have ha : acc = acc' := congrArg Prod.snd h1
    subst hd
    subst ha
    exact hinv n e f hm hf
  | cons p rest ih =>
    intro data acc data' acc' h hinv n e f hm hf
    rcases p with ⟨name, v⟩
    match v with
    | jobj cfg =>
      simp only [processSharedConfig] at h
      cases hpe : processSharedEntity name cfg data with
      | none => rw [hpe] at h; exact absurd h (by simp)
      | some r =>
        rw [hpe] at h
        rcases r with ⟨data1, ent⟩
        refine ih data1 (acc ++ ent.toList) data' acc' h ?_ n e f hm hf
        intro n0 e0 f0 hm0 hf0
        rcases List.mem_append.mp hm0 with hold | hnew
        · exact processSharedEntity_absent_pres name cfg data (data1, ent) f0 hpe
            (hinv n0 e0 f0 hold hf0)
        · have hent : ent = some (n0, e0) := by
            cases ent with
            | none => exact absurd hnew (by simp)
            | some q =>
              simp only [Option.toList, List.mem_singleton] at hnew
              rw [hnew]
          exact processSharedEntity_absent name cfg data (data1, ent) n0 e0 f0 hpe
            (by rw [hent]) hf0
    | jnull => exact ih data acc data' acc' h hinv n e f hm hf
    | jbool b => exact ih data acc data' acc' h hinv n e f hm hf
    | jnum nn => exact ih data acc data' acc' h hinv n e f hm hf
    | jstr s => exact ih data acc data' acc' h hinv n e f hm hf
    | jdate a b => exact ih data acc data' acc' h hinv n e f hm hf
    | jarr xs => exact ih data acc data' acc' h hinv n e f hm hf

theorem parse_model_file_shared_spec (dc : String) (raw : Dict) (pm : ParsedModelData)
    (hp : parse_model_file dc (some raw) = some pm) :
    pm.shared_data = [] ∨
    ∃ (sc : List (String × JValue)) (data1 : Dict),
      processSharedConfig sc raw [] = some (data1, pm.shared_data) ∧
      pm.data = dictDel data1 "_metadata" := by
  simp only [parse_model_file] at hp
  split at hp
  · have h1 := Option.some.inj hp
    exact Or.inl (congrArg ParsedModelData.shared_data h1).symm
  · next meta hmd =>
    rw [Option.bind_eq_some] at hp
    rcases hp with ⟨cn, hcn, hp⟩
    rw [Option.bind_eq_some] at hp
    rcases hp with ⟨did, hdid, hp⟩
    rw [Option.bind_eq_some] at hp
    rcases hp with ⟨res, hres, hp⟩
    split at hp
    · have h1 := Option.some.inj hp
      have hsh : pm.shared_data = res.2 :=
        (congrArg ParsedModelData.shared_data h1).symm
      have hdat : pm.data = dictDel res.1 "_metadata" :=
        (congrArg ParsedModelData.data h1).symm
      cases hsd : dictGet meta "sharedData" with
      | none =>
        rw [hsd] at hres
        have h2 : (raw, ([] : List (String × SharedEntry))) = res := Option.some.inj hres
        refine Or.inl ?_
        rw [hsh, ← h2]
      | some v =>
        match v with
        | jobj sc =>
          rw [hsd] at hres
          refine Or.inr ⟨sc, res.1, ?_, hdat⟩
          rw [hsh]
          exact hres
        | jnull => rw [hsd] at hres; exact absurd hres (by simp)
        | jbool b => rw [hsd] at hres; exact absurd hres (by simp)
        | jnum n => rw [hsd] at hres; exact absurd hres (by simp)
        | jstr str => rw [hsd] at hres; exact absurd hres (by simp)
        | jdate a b => rw [hsd] at hres; exact absurd hres (by simp)
        | jarr xs => rw [hsd] at hres; exact absurd hres (by simp)
    · exact absurd hp (by simp)
  · exact absurd hp (by simp)


/-- C1: refuted as stated.  Input A: the entity claims a field `missing` that
is not in the payload, so it is not present (let alone exactly once) in the
shared-entity write.  Input B: under an empty fields filter, a key merged from
the entity-named object collides with an unclaimed top-level field of the
same name, which is then written to both the shared and the page location. -/
theorem c1_counterexample :
    ((parse_model_file "root" (some rawCase1a)).map
      (fun pm => pm.shared_data.map
        (fun p => (p.1, fieldsContain p.2.fields "missing", countKey p.2.data "missing")))) =
      some [("org", true, 0)] ∧
    (0 : Nat) ≠ 1 ∧
    ((parse_model_file "root" (some rawCase1b)).map
      (fun pm => (dictHas pm.data "name",
        pm.shared_data.map (fun p => dictHas p.2.data "name")))) =
      some (true, [true]) :=
  ⟨rfl, by decide, rfl⟩

/-- C1 (amended): every field named in an emitted entity's fields list is
absent from the final payload (hence from the page-document write); and at
the step processing one entity, a claimed field still present in the payload
forces the entity to be emitted with that field present exactly once in its
data. -/
theorem c1_shared_field_extraction :
    (∀ (dc : String) (raw : Dict) (pm : ParsedModelData),
      parse_model_file dc (some raw) = some pm →
      ∀ (n : String) (e : SharedEntry) (f : String), (n, e) ∈ pm.shared_data →
        fieldsContain e.fields f = true → dictHas pm.data f = false) ∧
    (∀ (name : String) (cfg data : Dict) (res : Dict × Option (String × SharedEntry))
        (fs : List JValue) (f : String),
      processSharedEntity name cfg data = some res →
      dictGet cfg "fields" = some (jarr fs) →
      fieldsContain fs f = true → dictHas data f = true →
      ∃ e : SharedEntry, res.2 = some (name, e) ∧ countKey e.data f = 1) := by
  constructor
  · intro dc raw pm hp n e f hm hf
    rcases parse_model_file_shared_spec dc raw pm hp with hempty | ⟨sc, data1, hcfg, hdat⟩
    · rw [hempty] at hm
      exact absurd hm (by simp)
    · have habs := processSharedConfig_absent sc raw [] data1 pm.shared_data hcfg
        (by intro n0 e0 f0 hm0 _; exact absurd hm0 (by simp)) n e f hm hf
      rw [hdat]
      exact dictDel_absent_pres data1 "_metadata" f habs
  · intro name cfg data res fs f h hfs hf hd
    exact processSharedEntity_collects name cfg data res fs f h hfs hf hd

/-- C1 witness: the claimed field `name` is gone from the parsed payload and
appears exactly once in the emitted entity's data. -/
theorem c1_shared_field_extraction_witness :
    dictHas pmCase1.data "name" = false ∧ countKey entCase1.data "name" = 1 := by
  constructor
  · exact c1_shared_field_extraction.1 "root" rawCase1w pmCase1 rfl "org" entCase1 "name"
      (List.Mem.head _) rfl
  · rcases c1_shared_field_extraction.2 "org" cfgCase1 dataCase1 resCase1
      [jstr "name"] "name" rfl rfl rfl rfl with ⟨e, he, hc⟩
    have h2 : ("org", entCase1) = ("org", e) := Option.some.inj he
    have h3 : entCase1 = e := congrArg Prod.snd h2
    rw [h3]
    exact hc


theorem dictDel_comm (d : Dict) (k k' : String) :
    dictDel (dictDel d k) k' = dictDel (dictDel d k') k := by
  simp only [dictDel, List.filter_filter]
  congr 1
  funext p
  rw [Bool.and_comm]

theorem dictDel_addProvenance (ts uuid : String) (d : Dict) :
    dictDel (addProvenance ts uuid d) "_injectedAt" =
      dictSet (dictSet (dictDel d "_injectedAt") "_injectedBy" (jstr uuid)) "_source"
        (jstr "firebase-model-injector.py") := by
  unfold addProvenance
  rw [dictDel_set_ne _ _ _ _ (by decide), dictDel_set_ne _ _ _ _ (by decide),
    dictDel_set_self]

theorem addProvenance_eqModTs (ts1 ts2 uuid : String) (d : Dict) :
    dictDel (addProvenance ts1 uuid d) "_injectedAt" =
      dictDel (addProvenance ts2 uuid d) "_injectedAt" := by
  rw [dictDel_addProvenance, dictDel_addProvenance]

theorem pushShared_eqModTs (env1 env2 : Env) (store1 store2 : Store) (domain : String)
    (hs1 : ∀ w, store1 w = true) (hs2 : ∀ w, store2 w = true)
    (hu : env1.uuid = env2.uuid) :
    ∀ (entities : List (String × SharedEntry)) (st1 st2 : St),
      List.Forall₂ eqModTs
        (pushShared env1 store1 domain false entities st1).2.1
        (pushShared env2 store2 domain false entities st2).2.1 := by
  intro entities
  induction entities with
  | nil => intro st1 st2; exact List.Forall₂.nil
  | cons e rest ih =>
    intro st1 st2
    rcases e with ⟨n, e⟩
    simp only [pushShared, Bool.false_eq_true, if_false, hs1, hs2, if_true]
    exact List.Forall₂.cons
      ⟨rfl, rfl, rfl, by rw [hu]; exact addProvenance_eqModTs _ _ _ _⟩ (ih _ _)


theorem writeItems_eqModTs (env1 env2 : Env) (store1 store2 : Store) (c : String)
    (hs1 : ∀ w, store1 w = true) (hs2 : ∀ w, store2 w = true)
    (hu : env1.uuid = env2.uuid) (hdp : env1.dparse = env2.dparse) :
    ∀ (items : List JValue) (st1 st2 : St), items.all itemHasId = true →
      List.Forall₂ eqModTs
        (writeItems env1 store1 c items st1).2.1
        (writeItems env2 store2 c items st2).2.1 := by
  intro items
  induction items with
  | nil => intro st1 st2 _; exact List.Forall₂.nil
  | cons x rest ih =>
    intro st1 st2 hall
    rw [List.all_cons, Bool.and_eq_true] at hall
    match x with
    | jobj m =>
      have hid := hall.1
      simp only [itemHasId] at hid
      cases hgm : dictGet m "id" with
      | none => rw [hgm] at hid; exact absurd hid (by simp)
      | some v =>
        rw [hgm] at hid
        have hid2 : pyTruthy v = true := hid
        have hdoc1 : itemDocId env1 st1.gen m = (pyStr v, st1.gen) := by
          simp [itemDocId, hgm, hid2]
        have hdoc2 : itemDocId env2 st2.gen m = (pyStr v, st2.gen) := by
          simp [itemDocId, hgm, hid2]
        simp only [writeItems, hs1, hs2, if_true, hdoc1, hdoc2]
        refine List.Forall₂.cons ⟨rfl, rfl, rfl, ?_⟩ (ih _ _ hall.2)
        simp only [itemData, hdp, hu]
        rw [dictDel_comm, dictDel_comm _ "id" "_injectedAt",
          addProvenance_eqModTs (env1.clock st1.clk) (env2.clock st2.clk)]
    | jnull => exact ih _ _ hall.2
    | jbool b => exact ih _ _ hall.2
    | jnum n => exact ih _ _ hall.2
    | jstr s => exact ih _ _ hall.2
    | jdate a b => exact ih _ _ hall.2
    | jarr xs => exact ih _ _ hall.2

theorem writeArrayFields_eqModTs (env1 env2 : Env) (store1 store2 : Store)
    (declared : String) (data : Dict)
    (hs1 : ∀ w, store1 w = true) (hs2 : ∀ w, store2 w = true)
    (hu : env1.uuid = env2.uuid) (hdp : env1.dparse = env2.dparse) :
    ∀ (fields : List String) (st1 st2 : St),
      (∀ f ∈ fields, (itemsOf data f).all itemHasId = true) →
      List.Forall₂ eqModTs
        (writeArrayFields env1 store1 declared data fields false st1).2.1
        (writeArrayFields env2 store2 declared data fields false st2).2.1 := by
  intro fields
  induction fields with
  | nil => intro st1 st2 _; exact List.Forall₂.nil
  | cons f rest ih =>
    intro st1 st2 hall
    have hok1 : (writeItems env1 store1 (resolveCollection declared f)
        (itemsOf data f) st1).1 = true := by
      rw [writeItems_ok]
      exact List.all_eq_true.mpr fun w _ => hs1 w
    have hok2 : (writeItems env2 store2 (resolveCollection declared f)
        (itemsOf data f) st2).1 = true := by
      rw [writeItems_ok]
      exact List.all_eq_true.mpr fun w _ => hs2 w
    simp only [writeArrayFields, Bool.false_eq_true, if_false, hok1, hok2, if_true]
    exact List.rel_append
      (writeItems_eqModTs env1 env2 store1 store2 _ hs1 hs2 hu hdp _ st1 st2
        (hall f (List.mem_cons_self _ _)))
      (ih _ _ (fun g hg => hall g (List.mem_cons_of_mem _ hg)))


theorem pushMainData_eqModTs (env1 env2 : Env) (store1 store2 : Store)
    (pm : ParsedModelData)
    (hs1 : ∀ w, store1 w = true) (hs2 : ∀ w, store2 w = true)
    (hu : env1.uuid = env2.uuid) (hdp : env1.dparse = env2.dparse)
    (hids : allArrayItemsHaveIds pm.data = true) (st1 st2 : St) :
    List.Forall₂ eqModTs
      (pushMainData env1 store1 pm false st1).2.1
      (pushMainData env2 store2 pm false st2).2.1 := by
  simp only [pushMainData]
  split
  · refine writeArrayFields_eqModTs env1 env2 store1 store2 pm.collection_name pm.data
      hs1 hs2 hu hdp _ st1 st2 ?_
    intro f hf
    exact List.all_eq_true.mp hids f hf
  · split
    · simp only [writeSingleDoc, Bool.false_eq_true, if_false]
      refine List.Forall₂.cons ⟨rfl, rfl, rfl, ?_⟩ List.Forall₂.nil
      simp only [hdp, hu]
      exact addProvenance_eqModTs _ _ _ _
    · simp only [writeFallback, Bool.false_eq_true, if_false]
      refine List.Forall₂.cons ⟨rfl, rfl, rfl, ?_⟩ List.Forall₂.nil
      simp only [hu]
      exact addProvenance_eqModTs _ _ _ _

theorem pushToFirestore_eqModTs (env1 env2 : Env) (store1 store2 : Store)
    (domain : String) (pm : ParsedModelData)
    (hs1 : ∀ w, store1 w = true) (hs2 : ∀ w, store2 w = true)
    (hu : env1.uuid = env2.uuid) (hdp : env1.dparse = env2.dparse)
    (hids : allArrayItemsHaveIds pm.data = true) (st1 st2 : St) :
    List.Forall₂ eqModTs
      (pushToFirestore env1 store1 domain pm false st1).2.1
      (pushToFirestore env2 store2 domain pm false st2).2.1 := by
  have hok1 : (pushShared env1 store1 domain false pm.shared_data st1).1 = true := by
    rw [pushShared_ok]
    exact List.all_eq_true.mpr fun w _ => hs1 w
  have hok2 : (pushShared env2 store2 domain false pm.shared_data st2).1 = true := by
    rw [pushShared_ok]
    exact List.all_eq_true.mpr fun w _ => hs2 w
  rw [pushToFirestore_decomp, pushToFirestore_decomp, hok1, hok2, if_pos rfl, if_pos rfl]
  exact List.rel_append
    (pushShared_eqModTs env1 env2 store1 store2 domain hs1 hs2 hu pm.shared_data st1 st2)
    (pushMainData_eqModTs env1 env2 store1 store2 pm hs1 hs2 hu hdp hids _ _)


/-- C5: refuted as stated.  Two runs over the same raw JSON, differing only
in the store's id generator, produce different document ids for an item that
carries no `id` field — a difference the claim's timestamp-only exclusion
does not cover. -/
theorem c5_counterexample :
    envT.uuid = envG2.uuid ∧ envT.dparse = envG2.dparse ∧
    ((pushToFirestore envT acceptAll "d" pmCase5 false { gen := 0, clk := 0 }).2.1.map
      (fun w => w.docId)) = ["gen0"] ∧
    ((pushToFirestore envG2 acceptAll "d" pmCase5 false { gen := 0, clk := 0 }).2.1.map
      (fun w => w.docId)) = ["alt0"] ∧
    ¬ List.Forall₂ eqModTs
        (pushToFirestore envT acceptAll "d" pmCase5 false { gen := 0, clk := 0 }).2.1
        (pushToFirestore envG2 acceptAll "d" pmCase5 false { gen := 0, clk := 0 }).2.1 := by
  refine ⟨rfl, rfl, rfl, rfl, ?_⟩
  intro h
  cases h with
  | cons hw hrest => exact absurd hw.2.1 (by decide)

/-- C5 (amended): with the same actor id and date parser, two runs over the
same unchanged raw JSON produce pairwise-equal write lists up to the
`_injectedAt` provenance timestamp, provided every array item carries a
truthy id (store-generated ids for id-less items differ between runs). -/
theorem c5_two_run_determinism :
    ∀ (env1 env2 : Env) (store1 store2 : Store) (domain dc : String) (raw : Dict)
      (pm : ParsedModelData) (st1 st2 : St),
      (∀ w, store1 w = true) → (∀ w, store2 w = true) →
      env1.uuid = env2.uuid → env1.dparse = env2.dparse →
      parse_model_file dc (some raw) = some pm →
      allArrayItemsHaveIds pm.data = true →
      List.Forall₂ eqModTs
        (pushToFirestore env1 store1 domain pm false st1).2.1
        (pushToFirestore env2 store2 domain pm false st2).2.1 := by
  intro env1 env2 store1 store2 domain dc raw pm st1 st2 hs1 hs2 hu hdp hparse hids
  exact pushToFirestore_eqModTs env1 env2 store1 store2 domain pm hs1 hs2 hu hdp hids st1 st2

/-- C5 witness: two runs with different clocks and id generators over a
parsed model whose single array item carries an id. -/
theorem c5_two_run_determinism_witness :
    List.Forall₂ eqModTs
      (pushToFirestore envT acceptAll "d" pmCase5w false { gen := 0, clk := 0 }).2.1
      (pushToFirestore envC2 acceptAll "d" pmCase5w false { gen := 3, clk := 7 }).2.1 :=
  c5_two_run_determinism envT envC2 acceptAll acceptAll "d" "dash" rawCase5w pmCase5w
    { gen := 0, clk := 0 } { gen := 3, clk := 7 }
    (fun w => rfl) (fun w => rfl) rfl rfl rfl (by decide)

end FMI
